import Mathlib

set_option maxRecDepth 100000

/-!
# Verification of the llamacpp-server core coordination components

Shallow embedding of the repository's concurrency-critical components:

* `internal/modelmanagement/model_manager.go` — the model manager
  (resource registry / singleflight-with-cache pattern), embedded as a
  small-step transition system in which each mutex-protected section of
  the Go code is one atomic transition, and each `LoadModel` caller is a
  thread with an explicit program counter (`MM.Phase`).
* the predictions manager (operation admission tracker), embedded the
  same way (`PM`).
* `ModelState.broadcastingProgressFunc` — the progress-throttling
  broadcaster, embedded as a fold over the emitted values (`Prog`),
  with `float32` progress values idealised as rationals.
* the generation loop of `internal/grpcserver/predict_cmd.go`,
  embedded as a fuelled recursion over an abstract engine (`GenLoop`).

Machine pointers (`*ModelState`) are embedded as heap indices (`Nat`)
allocated from a monotone counter, so that Go pointer equality
(`currentState == state` in `removeState`) is index equality.
-/

namespace MM

/-- Errors of the model manager: `ErrModelManagerClosed`,
`ErrModelNotFound`, and construction (load) failures, distinguished by
a code. -/
inductive Err where
  | closed
  | notFound
  | load (code : Nat)
deriving DecidableEq, Repr

/-- The result pair `(model, err)` returned by `LoadModel`/`GetModel`.
`interface{}` model payloads are embedded as `Option Nat`
(`none` = Go `nil`). -/
abbrev LoadRes := Option Nat × Option Err

/-- `ModelState`: `Model`, `Err`, the registered progress sinks
(`Progresses`, identified by sink ids), and the `sync.WaitGroup`
counter `Wg`. The per-state mutex is implicit: each Go critical
section is one atomic transition. -/
structure MStateV where
  model : Option Nat := none
  err : Option Err := none
  progresses : List Nat := []
  wg : Nat := 0
deriving DecidableEq, Repr

instance : Inhabited MStateV := ⟨{}⟩

/-- `modelManager`: heap of `ModelState`s (indexed by allocation
order; `next` is the allocation counter), the `ModelStates` map as a
function from path to heap index, the `Closed` flag, the list of keys
ever inserted (to let `Stop` enumerate map entries), and a log of the
keys for which `LoadModelFunc` has been invoked (its length is the
invocation count). -/
structure Mgr where
  heap : Nat → MStateV
  next : Nat
  map : String → Option Nat
  closed : Bool
  keys : List String
  log : List String

/-- A fresh manager, as built by `NewModelManager`. -/
def Mgr.empty : Mgr :=
  { heap := fun _ => default, next := 0, map := fun _ => none,
    closed := false, keys := [], log := [] }

/-- `ModelState.addProgress` (appends a sink under the state mutex). -/
def addProgress (s : MStateV) (pid : Nat) : MStateV :=
  { s with progresses := s.progresses ++ [pid] }

/-- `modelManager.initiateLoad`: one critical section under `m.Mx`.
Returns `none` when the manager is closed (`ErrModelManagerClosed`);
otherwise `(sid, ok)` where `ok` reports whether the entry already
existed, exactly as the Go function returns `(state, ok, nil)`.
A fresh entry is allocated at index `next` with `Wg.Add(1)` performed,
then the caller's progress sink is registered. -/
def initiateLoad (m : Mgr) (k : String) (pid : Nat) : Option (Nat × Bool) × Mgr :=
  if m.closed then (none, m)
  else
    match m.map k with
    | some sid =>
        (some (sid, true),
          { m with heap := Function.update m.heap sid (addProgress (m.heap sid) pid) })
    | none =>
        let sid := m.next
        let st : MStateV := { model := none, err := none, progresses := [pid], wg := 1 }
        (some (sid, false),
          { m with heap := Function.update m.heap sid st,
                   next := m.next + 1,
                   map := Function.update m.map k (some sid),
                   keys := k :: m.keys })

/-- `ModelState.getModel`: returns `(nil, Err)` when an error is
recorded, else `(Model, nil)`. -/
def getModelAt (s : MStateV) : LoadRes :=
  match s.err with
  | some e => (none, some e)
  | none => (s.model, none)

/-- `modelManager.removeState(path, state)`: deletes the map entry for
`path` only when the currently mapped state is the very state object
(`currentState == state`), i.e. the same heap index. -/
def removeState (m : Mgr) (k : String) (sid : Nat) : Mgr :=
  if m.map k = some sid then { m with map := Function.update m.map k none } else m

/-- `ModelState.saveLoaded`: stores the construction result and clears
the waiter list. -/
def saveLoaded (m : Mgr) (sid : Nat) (r : LoadRes) : Mgr :=
  let st : MStateV := { model := r.1, err := r.2, progresses := [], wg := (m.heap sid).wg }
  { m with heap := Function.update m.heap sid st }

/-- `state.Wg.Done()`. -/
def wgDone (m : Mgr) (sid : Nat) : Mgr :=
  let st : MStateV := { m.heap sid with wg := (m.heap sid).wg - 1 }
  { m with heap := Function.update m.heap sid st }

/-- `modelManager.GetModel`: fails with `closed` on a closed manager,
with `notFound` when no entry exists, else returns the entry's current
contents via `ModelState.getModel`. -/
def getModelMgr (m : Mgr) (k : String) : LoadRes :=
  if m.closed then (none, some .closed)
  else
    match m.map k with
    | none => (none, some .notFound)
    | some sid => getModelAt (m.heap sid)

/-- `ModelState.free`: destroys/clears the state's fields (the
`Destroy` capability call on the payload is external and payload-free
here). -/
def freeState (m : Mgr) (sid : Nat) : Mgr :=
  let st : MStateV := { model := none, err := none, progresses := [], wg := (m.heap sid).wg }
  { m with heap := Function.update m.heap sid st }

/-- `modelManager.cancelLoads`: flips `Closed` once and captures the
states currently present in the map (no-op list on an already-closed
manager). -/
def cancelLoads (m : Mgr) : Mgr × List Nat :=
  if m.closed then (m, [])
  else ({ m with closed := true }, m.keys.dedup.filterMap m.map)

/-- `modelManager.Stop`, sequential rendering: cancel loads, then for
every captured state wait for its `Wg` (modelled as requiring the
counter to be zero — `none` means `Stop` would block) and free it. -/
def stopMgr (m : Mgr) : Option Mgr :=
  let (m', sids) := cancelLoads m
  if sids.all (fun sid => (m'.heap sid).wg = 0) then
    some (sids.foldl freeState m')
  else none

/-- Program counter of a `LoadModel` caller. Each constructor is a
point between two atomic sections of `modelManager.LoadModel`:

* `start` — about to call `initiateLoad` (also the state reached by
  the tail-recursive `return m.LoadModel(path, progress)`);
* `checking sid` — `ok` was true, about to call `state.getModel`;
* `evict sid` — `getModel` gave `model == nil && err != nil`, about to
  call `m.removeState`;
* `waitWg sid` — at `state.Wg.Wait()` (blocked until the counter is 0);
* `construct sid` — `ok` was false; the `m.LoadModelFunc` call is in
  flight (completing this step is the call returning);
* `save sid r` — about to run `state.saveLoaded(model, err)`;
* `wgdone sid r` — about to run the deferred `state.Wg.Done()`;
* `ret r` — `LoadModel` returned `r`. -/
inductive Phase where
  | start
  | checking (sid : Nat)
  | evict (sid : Nat)
  | waitWg (sid : Nat)
  | construct (sid : Nat)
  | save (sid : Nat) (r : LoadRes)
  | wgdone (sid : Nat) (r : LoadRes)
  | ret (r : LoadRes)
deriving DecidableEq, Repr

/-- A `LoadModel` caller: its key (model path), the id of its progress
sink, and its program counter. -/
structure Thread where
  key : String
  pid : Nat
  phase : Phase
deriving DecidableEq, Repr

/-- The whole system: the shared manager plus the calling threads. -/
structure Sys where
  mgr : Mgr
  threads : List Thread

/-- The result of the `i`-th `LoadModelFunc` invocation (the
construction stub), as `(model, err)`. -/
abbrev Oracle := Nat → LoadRes

/-- One atomic step of a single `LoadModel` caller, following the Go
code of `modelManager.LoadModel` line by line. Returns `none` when the
thread is terminal or blocked (at `Wg.Wait` with a nonzero counter). -/
def stepThread (o : Oracle) (m : Mgr) (t : Thread) : Option (Mgr × Thread) :=
  match t.phase with
  | .start =>
      match initiateLoad m t.key t.pid with
      | (none, m') => some (m', { t with phase := .ret (none, some .closed) })
      | (some (sid, true), m') => some (m', { t with phase := .checking sid })
      | (some (sid, false), m') => some (m', { t with phase := .construct sid })
  | .checking sid =>
      let r := getModelAt (m.heap sid)
      if r.1 ≠ none ∨ r.2 = none then some (m, { t with phase := .ret r })
      else some (m, { t with phase := .evict sid })
  | .evict sid => some (removeState m t.key sid, { t with phase := .waitWg sid })
  | .waitWg sid =>
      if (m.heap sid).wg = 0 then some (m, { t with phase := .start }) else none
  | .construct sid =>
      let r := o m.log.length
      some ({ m with log := m.log ++ [t.key] }, { t with phase := .save sid r })
  | .save sid r => some (saveLoaded m sid r, { t with phase := .wgdone sid r })
  | .wgdone sid r => some (wgDone m sid, { t with phase := .ret r })
  | .ret _ => none

/-- Schedule one step of thread `tid` (no-op when `tid` is out of
range, terminal, or blocked). -/
def stepSys (o : Oracle) (s : Sys) (tid : Nat) : Sys :=
  match s.threads.get? tid with
  | none => s
  | some t =>
      match stepThread o s.mgr t with
      | none => s
      | some (m', t') => ⟨m', s.threads.set tid t'⟩

/-- Run a schedule (a list of thread ids) from a system state. -/
def runSys (o : Oracle) (s : Sys) (sched : List Nat) : Sys :=
  sched.foldl (stepSys o) s

/-- Initial system: a fresh manager and one thread per `(key, sink)`
pair, all about to call `LoadModel`. -/
def initSys (cfg : List (String × Nat)) : Sys :=
  ⟨Mgr.empty, cfg.map (fun p => ⟨p.1, p.2, .start⟩)⟩

/-- The phase of thread `tid`. -/
def threadPhase (s : Sys) (tid : Nat) : Option Phase :=
  (s.threads.get? tid).map Thread.phase

/-- `true` on phases that denote a returned `LoadModel` call. -/
def Phase.isRet : Phase → Bool
  | .ret _ => true
  | _ => false

/-- `true` on phases whose `m.LoadModelFunc` call is in flight. -/
def Phase.isConstruct : Phase → Bool
  | .construct _ => true
  | _ => false

/-- Whether a thread is a construction in flight for key `k`. -/
def isConsFor (k : String) (t : Thread) : Bool :=
  (t.key == k) && t.phase.isConstruct

/-- Number of threads whose construction call for key `k` is in
flight. -/
def inFlight (s : Sys) (k : String) : Nat :=
  s.threads.countP (isConsFor k)

/-- Run a single thread for up to `fuel` atomic steps (a sequential
`LoadModel` call is such a run with no interleaving). -/
def runThread (o : Oracle) (s : Sys) (tid : Nat) (fuel : Nat) : Sys :=
  runSys o s (List.replicate fuel tid)

/-- The key-indexed number of threads in the construct, save or
wgdone phases referencing heap index `sid` (used to state owner
uniqueness). -/
def ownerSid : Phase → Option Nat
  | .construct sid => some sid
  | .save sid _ => some sid
  | .wgdone sid _ => some sid
  | _ => none

/-- The heap index a thread's phase refers to, if any. -/
def phaseSid : Phase → Option Nat
  | .checking sid => some sid
  | .evict sid => some sid
  | .waitWg sid => some sid
  | .construct sid => some sid
  | .save sid _ => some sid
  | .wgdone sid _ => some sid
  | _ => none

/-- Inductive invariant of the model-manager system (any oracle):

* `bmap`/`bthr` — every heap index in the map or held by a thread has
  been allocated (is below the allocation counter);
* `owner` — two distinct threads never own the same entry, where a
  thread owns the entry it is constructing, saving to, or about to
  `Wg.Done` (each entry has a unique constructing caller);
* `cons` — while a thread's construction (or pending save) for `sid`
  is in flight, the map still sends its key to `sid` and the entry is
  unpopulated with a raised `WaitGroup`;
* `evicterr` — a thread evicts only an entry it observed holding an
  error. -/
structure Inv (s : Sys) : Prop where
  bmap : ∀ k sid, s.mgr.map k = some sid → sid < s.mgr.next
  bthr : ∀ i t sid, s.threads.get? i = some t → phaseSid t.phase = some sid →
    sid < s.mgr.next
  owner : ∀ i j ti tj sidi sidj, i ≠ j → s.threads.get? i = some ti →
    s.threads.get? j = some tj → ownerSid ti.phase = some sidi →
    ownerSid tj.phase = some sidj → sidi ≠ sidj
  cons : ∀ i t sid, s.threads.get? i = some t →
    (t.phase = .construct sid ∨ ∃ r, t.phase = .save sid r) →
    s.mgr.map t.key = some sid ∧ (s.mgr.heap sid).model = none ∧
      (s.mgr.heap sid).err = none ∧ (s.mgr.heap sid).wg = 1
  evicterr : ∀ i t sid, s.threads.get? i = some t → t.phase = .evict sid →
    (s.mgr.heap sid).err ≠ none

/-- `LoadModelFunc` invocations for key `k` on the books (logged plus
in flight): used to show the success-oracle singleflight property. -/
def countA (s : Sys) (k : String) : Nat :=
  s.mgr.log.count k + s.threads.countP (isConsFor k)

/-- Additional inductive invariant when every construction result
carries no error (a succeeding stub): the manager stays open, no
entry ever holds an error, hence no thread ever evicts or waits, the
map and the invocation count agree (`countA k` is `1` exactly when
`k` is mapped), and every thread past `initiateLoad` has its key
mapped. -/
structure InvS (s : Sys) : Prop where
  notclosed : s.mgr.closed = false
  allerr : ∀ sid, (s.mgr.heap sid).err = none
  noevict : ∀ i t sid, s.threads.get? i = some t →
    t.phase ≠ .evict sid ∧ t.phase ≠ .waitWg sid
  saveok : ∀ i t sid r, s.threads.get? i = some t → t.phase = .save sid r → r.2 = none
  acount : ∀ k, (s.mgr.map k = none ∧ countA s k = 0) ∨
    (∃ sid, s.mgr.map k = some sid ∧ countA s k = 1)
  mapped : ∀ i t, s.threads.get? i = some t → t.phase ≠ .start →
    (s.mgr.map t.key).isSome

end MM

namespace PM

/-- `predictionsManager`: the `closed` flag and the `sync.WaitGroup`
in-flight counter. Both critical sections (`initiatePrediction`,
`cancelPredictions`) are atomic transitions below. -/
structure Mgr where
  closed : Bool
  count : Nat
deriving DecidableEq, Repr

/-- Program counter of a `Predict` caller:
`idle` — about to call `initiatePrediction`;
`running` — admitted, the `predictFunc` call is in flight;
`retClosed` — returned `ErrPredictionsManagerClosed`;
`finished` — `predictFunc` returned and the deferred `wg.Done` ran. -/
inductive PPhase where
  | idle
  | running
  | retClosed
  | finished
deriving DecidableEq, Repr

/-- `true` on admitted, not yet completed predictions. -/
def PPhase.isRunning : PPhase → Bool
  | .running => true
  | _ => false

/-- Program counter of the `Stop` caller:
`notCalled` — about to call `cancelPredictions`;
`draining` — at `wg.Wait()` (blocked until the counter is 0);
`returned` — `Stop` returned. -/
inductive SPhase where
  | notCalled
  | draining
  | returned
deriving DecidableEq, Repr

/-- The system: the shared manager, the `Predict` callers, and one
`Stop` caller. -/
structure Sys where
  mgr : Mgr
  preds : List PPhase
  stopPh : SPhase
deriving DecidableEq, Repr

/-- A scheduling action: step prediction caller `i`, or step the
`Stop` caller. -/
inductive Act where
  | pred (i : Nat)
  | stop
deriving DecidableEq, Repr

/-- One atomic step of a `Predict` caller:
`initiatePrediction` fails with the closed error under the mutex when
`closed` is set, otherwise does `wg.Add(1)`; a running prediction
completes by running the deferred `wg.Done()`. -/
def stepPred (m : Mgr) : PPhase → Option (Mgr × PPhase)
  | .idle =>
      if m.closed then some (m, .retClosed)
      else some ({ m with count := m.count + 1 }, .running)
  | .running => some ({ m with count := m.count - 1 }, .finished)
  | _ => none

/-- One atomic step of the `Stop` caller: `cancelPredictions` flips
`closed` once (idempotent), then `wg.Wait()` returns only when the
counter is zero. -/
def stepStop (m : Mgr) : SPhase → Option (Mgr × SPhase)
  | .notCalled =>
      some (if m.closed then m else { m with closed := true }, .draining)
  | .draining => if m.count = 0 then some (m, .returned) else none
  | .returned => none

/-- Schedule one action (no-op when the target is absent, terminal or
blocked). -/
def stepSys (s : Sys) : Act → Sys
  | .pred i =>
      match s.preds.get? i with
      | none => s
      | some ph =>
          match stepPred s.mgr ph with
          | none => s
          | some (m', ph') => ⟨m', s.preds.set i ph', s.stopPh⟩
  | .stop =>
      match stepStop s.mgr s.stopPh with
      | none => s
      | some (m', sp') => ⟨m', s.preds, sp'⟩

/-- Run a schedule of actions. -/
def runSys (s : Sys) (sched : List Act) : Sys :=
  sched.foldl stepSys s

/-- Initial system: open manager, zero count, `n` idle `Predict`
callers, `Stop` not yet called. -/
def initSys (n : Nat) : Sys :=
  ⟨⟨false, 0⟩, List.replicate n .idle, .notCalled⟩

/-- Number of admitted, not yet completed predictions. -/
def countRunning (l : List PPhase) : Nat := l.countP (fun p => p.isRunning)

/-- Inductive invariant of the predictions-manager system: the
`WaitGroup` counter counts exactly the running predictions, the
closed flag is set from the moment `cancelPredictions` ran, and once
`Stop` has returned the counter is zero. -/
structure Inv (s : Sys) : Prop where
  count_eq : s.mgr.count = countRunning s.preds
  closed_of_stop : s.stopPh ≠ .notCalled → s.mgr.closed = true
  returned_zero : s.stopPh = .returned → s.mgr.count = 0

end PM

namespace Prog

/-- Go's `int(progress * 100.0)` on an intermediate value
`0 < progress < 1` (truncation toward zero coincides with `⌊·⌋` on
nonnegative values); `float32` progress values are idealised as
rationals. Written on the numerator/denominator representation so
that the kernel can evaluate it; `truncPercent_eq_floor` below shows
it is `⌊p * 100⌋`. -/
def truncPercent (p : ℚ) : Int := p.num * 100 / (p.den : Int)

/-- One call of the closure returned by
`ModelState.broadcastingProgressFunc`, as a function of the captured
`lastIntProgress` variable: returns the new `lastIntProgress` and
whether the value was forwarded to the registered waiters. A value
strictly inside `(0,1)` is dropped unless its integer percent reaches
`lastIntProgress + 1`, in which case `lastIntProgress` is updated; any
other value (in particular the boundaries `0` and `1`) is always
forwarded and leaves `lastIntProgress` untouched. -/
def step (last : Int) (p : ℚ) : Int × Bool :=
  if 0 < p ∧ p < 1 then
    if truncPercent p < last + 1 then (last, false)
    else (truncPercent p, true)
  else (last, true)

/-- Fold `step` over a sequence of emitted progress values, counting
the forwarded ones; `lastIntProgress` starts at `0`. -/
def run : Int → List ℚ → Int × Nat
  | last, [] => (last, 0)
  | last, p :: ps =>
      let (l', b) := step last p
      let (lf, n) := run l' ps
      (lf, (if b then 1 else 0) + n)

/-- 1000 evenly spaced values spanning `[0,1]`:
`0, 1/999, …, 998/999, 1` (`mkRat i 999 = (i : ℚ) / 999`, see
`Prog.mkRat_coe_eq_div`). -/
def evenList : List ℚ := (List.range 1000).map (fun i => mkRat i 999)

end Prog

namespace GenLoop

/-- Result of one `context.Decode(batch)` call: success, the transient
`ErrKvCacheFull`, or a hard failure. -/
inductive DecodeRes where
  | ok
  | kvFull
  | fail (msg : String)
deriving DecidableEq, Repr

/-- Errors surfaced by `predictCmd.Do`'s generation loop. -/
inductive GenErr where
  | ctxExceeded
  | decodeFailed (msg : String)
  | pieceFailed (msg : String)
  | streamFailed (msg : String)
deriving DecidableEq, Repr

/-- The external engine consumed by the generation loop, as oracles:
`decode i` is the result of the `i`-th `context.Decode` call (the KV
cells in use grow by the batch size on success), `sample i` the token
produced by the `i`-th `sampler.Sample` call, `isEog` the vocabulary's
end-of-generation predicate, `tokenToPiece` the detokenizer. -/
structure Engine where
  nCells : Nat
  decode : Nat → DecodeRes
  sample : Nat → Int
  isEog : Int → Bool
  tokenToPiece : Int → Except String String

/-- The streaming sink: `stream(token, tokens, piece)`, `some msg`
being a sink failure. -/
abbrev StreamFn := Int → Nat → String → Option String

/-- The mutable state of the generation loop in `predictCmd.Do`:
accumulated `response`, `pos`, `generatedTokens`, the current batch,
the KV cells in use (`context.NCellsUsed()`), and the number of
decode / sample calls made so far (the oracle indices). -/
structure LoopSt where
  response : String
  pos : Nat
  generated : Nat
  batch : List Int
  used : Nat
  decodes : Nat
  samples : Nat
deriving DecidableEq, Repr

/-- Loop state on entry: empty response, the tokenized prompt as the
first batch. -/
def initSt (prompt : List Int) : LoopSt :=
  ⟨"", 0, 0, prompt, 0, 0, 0⟩

/-- The generation loop of `predictCmd.Do` (lines 235–302), one
iteration per fuel unit (`none` = fuel exhausted; the Go loop is
unbounded). Per iteration, in source order: the token-budget check,
the context-capacity check, `Decode` (breaking out with the partial
response and nil error on `ErrKvCacheFull`, aborting on a hard
failure), `Sample`, the end-of-generation check, `TokenToPiece`, the
optional streaming sink (aborting on sink failure), then accumulate
and continue with a single-token batch. -/
def loopAux (eng : Engine) (nPredict : Int) (promptLen : Nat)
    (stream : Option StreamFn) : Nat → LoopSt → Option ((String × Option GenErr) × LoopSt)
  | 0, _ => none
  | fuel + 1, s =>
    if 0 < nPredict ∧ nPredict ≤ (s.generated : Int) then some ((s.response, none), s)
    else if eng.nCells < s.used + s.batch.length then some (("", some .ctxExceeded), s)
    else
      match eng.decode s.decodes with
      | .kvFull => some ((s.response, none), s)
      | .fail msg => some (("", some (.decodeFailed msg)), s)
      | .ok =>
        let s1 : LoopSt :=
          { s with pos := s.pos + s.batch.length, used := s.used + s.batch.length,
                   decodes := s.decodes + 1 }
        let tok := eng.sample s1.samples
        let s2 : LoopSt := { s1 with samples := s1.samples + 1 }
        if eng.isEog tok then some ((s2.response, none), s2)
        else
          match eng.tokenToPiece tok with
          | .error msg => some (("", some (.pieceFailed msg)), s2)
          | .ok piece =>
            match (match stream with
                   | none => none
                   | some f => f tok (promptLen + s2.generated) piece) with
            | some msg => some (("", some (.streamFailed msg)), s2)
            | none =>
                let s3 : LoopSt :=
                  { s2 with response := s2.response ++ piece,
                            generated := s2.generated + 1, batch := [tok] }
                loopAux eng nPredict promptLen stream fuel s3

/-- Run the generation loop on a tokenized prompt. -/
def genLoop (eng : Engine) (nPredict : Int) (prompt : List Int)
    (stream : Option StreamFn) (fuel : Nat) : Option ((String × Option GenErr) × LoopSt) :=
  loopAux eng nPredict prompt.length stream fuel (initSt prompt)

end GenLoop

/-! Witness fixtures: concrete instances used by the witness theorems. -/

/-- Stub engine: decodes always succeed, token `i` is sampled at step
`i`, token `4` is end-of-generation, each token detokenizes to `"a"`. -/
def stubEngine : GenLoop.Engine :=
  { nCells := 4096,
    decode := fun _ => .ok,
    sample := fun i => (i : Int),
    isEog := fun t => t = 4,
    tokenToPiece := fun _ => .ok "a" }

/-- Stub engine whose very first decode reports `ErrKvCacheFull`. -/
def kvFullEngine : GenLoop.Engine :=
  { stubEngine with decode := fun _ => .kvFull }

/-- Construction stub that always succeeds with model `5`. -/
def okOracle : MM.Oracle := fun _ => (some 5, none)

/-!
## Theorems

Helper lemmas first, then one theorem per claim (with a witness
theorem whenever the claim's theorem has hypotheses).
-/

/-- `Prog.truncPercent` is exactly `⌊p * 100⌋`, Go's
`int(progress * 100.0)` on values in `(0,1)`. -/
theorem Prog.truncPercent_eq_floor (p : ℚ) : Prog.truncPercent p = ⌊p * 100⌋ := by
  have h : p * 100 = ((p.num * 100 : Int) : ℚ) / ((p.den : ℕ) : ℚ) := by
    conv_lhs => rw [← Rat.num_div_den p]
    push_cast
    ring
  rw [h, Rat.floor_intCast_div_natCast, Prog.truncPercent]

/-- The members of `Prog.evenList` are the claimed evenly spaced
rationals `i / 999`. -/
theorem Prog.mkRat_coe_eq_div (i : ℕ) : mkRat (i : Int) 999 = (i : ℚ) / 999 := by
  rw [Rat.mkRat_eq_div]
  push_cast
  ring

/-- One successful iteration of the generation loop (no streaming
sink): the budget is not exhausted, capacity suffices, decode
succeeds, the sampled token is not end-of-generation, and it
detokenizes to `piece`; the loop continues on the advanced state. -/
theorem GenLoop.loopAux_step_ok (eng : GenLoop.Engine) (nPredict : Int)
    (promptLen fuel : Nat) (s : GenLoop.LoopSt) (piece : String)
    (hb : ¬(0 < nPredict ∧ nPredict ≤ (s.generated : Int)))
    (hcap : s.used + s.batch.length ≤ eng.nCells)
    (hdec : eng.decode s.decodes = .ok)
    (heog : eng.isEog (eng.sample s.samples) = false)
    (hp : eng.tokenToPiece (eng.sample s.samples) = .ok piece) :
    GenLoop.loopAux eng nPredict promptLen none (fuel + 1) s =
      GenLoop.loopAux eng nPredict promptLen none fuel
        { s with response := s.response ++ piece, pos := s.pos + s.batch.length,
                 generated := s.generated + 1, batch := [eng.sample s.samples],
                 used := s.used + s.batch.length,
                 decodes := s.decodes + 1, samples := s.samples + 1 } := by
  conv_lhs => rw [GenLoop.loopAux]
  rw [if_neg hb, if_neg (by omega), hdec]
  simp only [heog, hp, Bool.false_eq_true, if_false]

/-- The end-of-generation iteration of the generation loop: decode
succeeds and the sampled token satisfies the engine's EOS predicate;
the loop returns the accumulated response with no error. -/
theorem GenLoop.loopAux_step_eog (eng : GenLoop.Engine) (nPredict : Int)
    (promptLen fuel : Nat) (s : GenLoop.LoopSt)
    (hb : ¬(0 < nPredict ∧ nPredict ≤ (s.generated : Int)))
    (hcap : s.used + s.batch.length ≤ eng.nCells)
    (hdec : eng.decode s.decodes = .ok)
    (heog : eng.isEog (eng.sample s.samples) = true) :
    GenLoop.loopAux eng nPredict promptLen none (fuel + 1) s =
      some ((s.response, none),
        { s with pos := s.pos + s.batch.length, used := s.used + s.batch.length,
                 decodes := s.decodes + 1, samples := s.samples + 1 }) := by
  conv_lhs => rw [GenLoop.loopAux]
  rw [if_neg hb, if_neg (by omega), hdec]
  simp only [heog, if_true]

/-- C5. The broadcasting progress function throttles by integer
percent: an intermediate value `0 < p < 1` is forwarded iff its
truncated integer percent advanced past `lastIntProgress` (and the
forwarding updates `lastIntProgress` to it); the boundary values `0`
and `1` are always forwarded; on 1000 evenly spaced values in `[0,1]`
exactly 101 values are forwarded (the two boundaries plus the 99
integer-percent advances), in particular the final `1`. -/
theorem claim_C5 :
    (∀ (last : Int) (p : ℚ), 0 < p → p < 1 →
      ((Prog.step last p).2 = true ↔ last < Prog.truncPercent p)) ∧
    (∀ (last : Int) (p : ℚ), 0 < p → p < 1 → (Prog.step last p).2 = true →
      (Prog.step last p).1 = Prog.truncPercent p) ∧
    (∀ last : Int, (Prog.step last 0).2 = true ∧ (Prog.step last 1).2 = true) ∧
    (Prog.run 0 Prog.evenList).2 = 101 := by
  refine ⟨?_, ?_, ?_, by decide⟩
  · intro last p h0 h1
    rw [Prog.step, if_pos ⟨h0, h1⟩]
    split
    · next h => simp only [Bool.false_eq_true, false_iff]; omega
    · next h => simp only [true_iff]; omega
  · intro last p h0 h1 hfwd
    rw [Prog.step, if_pos ⟨h0, h1⟩]
    rw [Prog.step, if_pos ⟨h0, h1⟩] at hfwd
    split
    · next h => rw [if_pos h] at hfwd; simp at hfwd
    · next h => rfl
  · intro last
    constructor
    · rw [Prog.step, if_neg (by simp)]
    · rw [Prog.step, if_neg (by simp)]

/-- Witness for C5 at `lastIntProgress = 0`, `p = 1/2`. -/
theorem claim_C5_witness :
    ((Prog.step 0 (mkRat 1 2)).2 = true ↔ (0 : Int) < Prog.truncPercent (mkRat 1 2)) ∧
    (Prog.run 0 Prog.evenList).2 = 101 :=
  ⟨claim_C5.1 0 (mkRat 1 2) (by decide) (by decide), claim_C5.2.2.2⟩

/-- C8. When `context.Decode` reports the transient `ErrKvCacheFull`
condition (with the budget not yet reached and the capacity check
passed, as on the code path), the generation loop stops and returns
the text accumulated so far together with a nil error — a partial
success, not an error. -/
theorem claim_C8 (eng : GenLoop.Engine) (nPredict : Int) (promptLen fuel : Nat)
    (stream : Option GenLoop.StreamFn) (s : GenLoop.LoopSt)
    (hb : ¬(0 < nPredict ∧ nPredict ≤ (s.generated : Int)))
    (hcap : s.used + s.batch.length ≤ eng.nCells)
    (hdec : eng.decode s.decodes = .kvFull) :
    GenLoop.loopAux eng nPredict promptLen stream (fuel + 1) s =
      some ((s.response, none), s) := by
  conv_lhs => rw [GenLoop.loopAux]
  rw [if_neg hb, if_neg (by omega), hdec]

/-- Witness for C8: an engine whose first decode reports
`ErrKvCacheFull` makes the loop return `("", nil)` immediately. -/
theorem claim_C8_witness :
    GenLoop.loopAux kvFullEngine 100 1 none (9 + 1) (GenLoop.initSt [7]) =
      some ((("" : String), none), GenLoop.initSt [7]) :=
  claim_C8 kvFullEngine 100 1 9 none (GenLoop.initSt [7]) (by decide) (by decide) rfl

/-- Freeing captured states does not change the `Closed` flag. -/
theorem MM.closed_foldl_freeState (sids : List Nat) (m : MM.Mgr) :
    (sids.foldl MM.freeState m).closed = m.closed := by
  induction sids generalizing m with
  | nil => rfl
  | cons sid rest ih => rw [List.foldl_cons, ih]; rfl

/-- C4. After `Stop()` has returned, the manager is closed, and on a
closed manager every `GetModel` fails with `ErrModelManagerClosed`
and every `LoadModel` call's first step (`initiateLoad`) returns
`ErrModelManagerClosed` — deterministically, for every key, touching
nothing. -/
theorem claim_C4 :
    (∀ m m' : MM.Mgr, MM.stopMgr m = some m' → m'.closed = true) ∧
    (∀ (m : MM.Mgr) (k : String), m.closed = true →
      MM.getModelMgr m k = (none, some .closed)) ∧
    (∀ (o : MM.Oracle) (m : MM.Mgr) (t : MM.Thread), m.closed = true → t.phase = .start →
      MM.stepThread o m t = some (m, { t with phase := .ret (none, some .closed) })) := by
  refine ⟨?_, ?_, ?_⟩
  · intro m m' h
    unfold MM.stopMgr MM.cancelLoads at h
    by_cases hc : m.closed = true
    · rw [if_pos hc] at h
      simp only [List.all_nil, if_true, List.foldl_nil] at h
      cases h
      exact hc
    · rw [if_neg hc] at h
      dsimp only at h
      split at h
      · cases h
        rw [MM.closed_foldl_freeState]
      · exact absurd h (by simp)
  · intro m k hc
    unfold MM.getModelMgr
    rw [if_pos hc]
  · intro o m t hc hp
    simp [MM.stepThread, hp, MM.initiateLoad, hc]

/-- Witness for C4 on a concrete stopped manager. -/
theorem claim_C4_witness :
    ({ MM.Mgr.empty with closed := true } : MM.Mgr).closed = true ∧
    MM.getModelMgr { MM.Mgr.empty with closed := true } "m" = (none, some .closed) :=
  ⟨claim_C4.1 MM.Mgr.empty { MM.Mgr.empty with closed := true } rfl,
    claim_C4.2.1 { MM.Mgr.empty with closed := true } "m" rfl⟩

/-- C6. Retry after failure, for every key `k`: a `LoadModel(k)` call
whose construction fails with error code `c` returns that error; a
later `LoadModel(k)` call whose construction now succeeds with model
`v` evicts the failed entry, retries, and returns `(v, nil)`; the
constructor has been invoked exactly twice in total. -/
theorem claim_C6 (k : String) (c v : Nat) :
    let o : MM.Oracle := fun i => if i = 0 then (none, some (.load c)) else (some v, none)
    let s1 := MM.runThread o (MM.initSys [(k, 0), (k, 1)]) 0 12
    let s2 := MM.runThread o s1 1 12
    MM.threadPhase s1 0 = some (.ret (none, some (.load c))) ∧
    MM.threadPhase s2 1 = some (.ret (some v, none)) ∧
    s2.mgr.log.length = 2 := by
  simp [MM.runThread, MM.runSys, MM.stepSys, MM.stepThread, MM.initSys, MM.initiateLoad,
    MM.getModelAt, MM.removeState, MM.saveLoaded, MM.wgDone, MM.Mgr.empty, MM.addProgress,
    MM.threadPhase, List.replicate, Function.update_same, Function.update_noteq]

/-- C7 counterexample. After a `LoadModel("m")` call whose
construction failed, a `GetModel("m")` issued before any further
`LoadModel` returns the cached construction error — not
`ErrModelNotFound` as the claim states: the failed entry is still in
the map. -/
theorem claim_C7_counterexample :
    let o : MM.Oracle := fun _ => (none, some (.load 7))
    let s1 := MM.runThread o (MM.initSys [("m", 0)]) 0 12
    MM.threadPhase s1 0 = some (.ret (none, some (.load 7))) ∧
    (s1.mgr.map "m").isSome = true ∧
    MM.getModelMgr s1.mgr "m" = (none, some (.load 7)) ∧
    MM.getModelMgr s1.mgr "m" ≠ (none, some .notFound) := by decide

/-- C7 amended. A failed entry is not removed when the failed
construction completes: it stays mapped holding the error, and a
`GetModel` for that key issued before any further `LoadModel` returns
the cached construction error. The entry is removed only by the next
`LoadModel` call for that key, which evicts it and starts a fresh
construction attempt (a second invocation, here mapped at a fresh
index). -/
theorem claim_C7_amended (k : String) (c : Nat) :
    let o : MM.Oracle := fun _ => (none, some (.load c))
    let s1 := MM.runThread o (MM.initSys [(k, 0), (k, 1)]) 0 12
    let s2 := MM.runThread o s1 1 12
    MM.threadPhase s1 0 = some (.ret (none, some (.load c))) ∧
    s1.mgr.map k = some 0 ∧
    MM.getModelMgr s1.mgr k = (none, some (.load c)) ∧
    s2.mgr.map k = some 1 ∧
    s2.mgr.log.length = 2 := by
  simp [MM.runThread, MM.runSys, MM.stepSys, MM.stepThread, MM.initSys, MM.initiateLoad,
    MM.getModelAt, MM.removeState, MM.saveLoaded, MM.wgDone, MM.Mgr.empty, MM.addProgress,
    MM.threadPhase, MM.getModelMgr, List.replicate, Function.update_same, Function.update_noteq]

/-- C1 (failing evaluation). Two concurrent `LoadModel("m")` calls:
thread 0 creates the entry and its construction is in flight; thread
1 finds the existing entry, registers its progress sink, but — since
`ModelState.getModel` returns `(nil, nil)` for an in-flight entry and
`LoadModel`'s condition `model != nil || err == nil` then holds —
returns `(nil, nil)` immediately instead of blocking on the
completion signal. Thread 0 later returns the loaded model
`(some 5, nil)`: the two concurrent calls observe different results,
and the waiter observes neither the loaded model nor an error. -/
theorem claim_C1 :
    MM.threadPhase (MM.runSys okOracle (MM.initSys [("m", 0), ("m", 1)]) [0, 1, 1]) 1 =
      some (.ret (none, none)) ∧
    MM.threadPhase (MM.runSys okOracle (MM.initSys [("m", 0), ("m", 1)]) [0, 1, 1]) 0 =
      some (.construct 0) ∧
    MM.threadPhase (MM.runSys okOracle (MM.initSys [("m", 0), ("m", 1)]) [0, 1, 1, 0, 0, 0]) 0 =
      some (.ret (some 5, none)) ∧
    MM.threadPhase (MM.runSys okOracle (MM.initSys [("m", 0), ("m", 1)]) [0, 1, 1, 0, 0, 0]) 1 =
      some (.ret (none, none)) := by decide

/-- Replacing element `i` of a phase list exchanges its contribution
to the running count. -/
theorem PM.countRunning_set (l : List PM.PPhase) (i : Nat) (ph ph' : PM.PPhase)
    (h : l.get? i = some ph) :
    PM.countRunning (l.set i ph') + (if ph.isRunning then 1 else 0) =
      PM.countRunning l + (if ph'.isRunning then 1 else 0) := by
  induction l generalizing i with
  | nil => simp at h
  | cons hd tl ih =>
    cases i with
    | zero =>
      rw [List.get?_cons_zero, Option.some.injEq] at h
      subst h
      simp only [List.set_cons_zero, PM.countRunning, List.countP_cons]
      omega
    | succ j =>
      rw [List.get?_cons_succ] at h
      have := ih j h
      simp only [List.set_cons_succ, PM.countRunning, List.countP_cons] at *
      omega

/-- The initial phase list has no running prediction. -/
theorem PM.countRunning_replicate_idle (n : Nat) :
    PM.countRunning (List.replicate n .idle) = 0 := by
  induction n with
  | zero => rfl
  | succ m ih =>
    rw [List.replicate_succ]
    simp only [PM.countRunning, List.countP_cons] at *
    simp [ih, PM.PPhase.isRunning]

/-- `PM.Inv` is preserved by every scheduled step. -/
theorem PM.pinv_step (s : PM.Sys) (a : PM.Act) (hinv : PM.Inv s) : PM.Inv (PM.stepSys s a) := by
  obtain ⟨hcount, hcs, hrz⟩ := hinv
  cases a with
  | pred i =>
    dsimp only [PM.stepSys]
    cases hget : s.preds.get? i with
    | none => exact ⟨hcount, hcs, hrz⟩
    | some ph =>
      cases ph with
      | idle =>
        dsimp only [PM.stepPred]
        by_cases hc : s.mgr.closed = true
        · rw [if_pos hc]
          have hset := PM.countRunning_set s.preds i .idle .retClosed hget
          simp [PM.PPhase.isRunning] at hset
          exact ⟨by dsimp only; omega, fun _ => hc,
            fun h => by have := hrz h; dsimp only; omega⟩
        · rw [if_neg hc]
          have hset := PM.countRunning_set s.preds i .idle .running hget
          simp [PM.PPhase.isRunning] at hset
          refine ⟨by dsimp only; omega, fun h => absurd (hcs h) hc,
            fun h => absurd (hcs (by rw [h]; intro hne; cases hne)) hc⟩
      | running =>
        dsimp only [PM.stepPred]
        have hset := PM.countRunning_set s.preds i .running .finished hget
        simp [PM.PPhase.isRunning] at hset
        exact ⟨by dsimp only; omega, fun h => hcs h,
          fun h => by have := hrz h; dsimp only; omega⟩
      | retClosed => exact ⟨hcount, hcs, hrz⟩
      | finished => exact ⟨hcount, hcs, hrz⟩
  | stop =>
    dsimp only [PM.stepSys]
    cases hst : s.stopPh with
    | notCalled =>
      dsimp only [PM.stepStop]
      by_cases hc : s.mgr.closed = true
      · rw [if_pos hc]
        exact ⟨hcount, fun _ => hc, fun h => by cases h⟩
      · rw [if_neg hc]
        exact ⟨hcount, fun _ => rfl, fun h => by cases h⟩
    | draining =>
      dsimp only [PM.stepStop]
      by_cases h0 : s.mgr.count = 0
      · rw [if_pos h0]
        exact ⟨hcount, fun _ => hcs (by rw [hst]; intro hne; cases hne), fun _ => h0⟩
      · rw [if_neg h0]
        exact ⟨hcount, hcs, hrz⟩
    | returned => exact ⟨hcount, hcs, hrz⟩

/-- `PM.Inv` holds along every run from a state satisfying it. -/
theorem PM.pinv_run (s : PM.Sys) (sched : List PM.Act) (hinv : PM.Inv s) :
    PM.Inv (PM.runSys s sched) := by
  induction sched generalizing s with
  | nil => exact hinv
  | cons a rest ih => exact ih (PM.stepSys s a) (PM.pinv_step s a hinv)

/-- `PM.Inv` holds initially. -/
theorem PM.pinv_init (n : Nat) : PM.Inv (PM.initSys n) :=
  ⟨(PM.countRunning_replicate_idle n).symm, fun h => absurd rfl h, fun h => by cases h⟩

/-- Once the manager is closed, one step keeps it closed and never
increases the in-flight count. -/
theorem PM.closed_step (s : PM.Sys) (a : PM.Act) (hc : s.mgr.closed = true) :
    (PM.stepSys s a).mgr.closed = true ∧ (PM.stepSys s a).mgr.count ≤ s.mgr.count := by
  cases a with
  | pred i =>
    dsimp only [PM.stepSys]
    cases hget : s.preds.get? i with
    | none => exact ⟨hc, le_refl _⟩
    | some ph =>
      cases ph with
      | idle => dsimp only [PM.stepPred]; rw [if_pos hc]; exact ⟨hc, le_refl _⟩
      | running => exact ⟨hc, by dsimp only [PM.stepPred]; omega⟩
      | retClosed => exact ⟨hc, le_refl _⟩
      | finished => exact ⟨hc, le_refl _⟩
  | stop =>
    dsimp only [PM.stepSys]
    cases hst : s.stopPh with
    | notCalled => dsimp only [PM.stepStop]; rw [if_pos hc]; exact ⟨hc, le_refl _⟩
    | draining =>
      dsimp only [PM.stepStop]
      by_cases h0 : s.mgr.count = 0
      · rw [if_pos h0]; exact ⟨hc, le_refl _⟩
      · rw [if_neg h0]; exact ⟨hc, le_refl _⟩
    | returned => exact ⟨hc, le_refl _⟩

/-- C3. For the predictions manager: (a) once the closed flag is set,
an idle `Predict` caller's admission step fails with
`ErrPredictionsManagerClosed`, leaving the manager (in particular the
in-flight count) untouched; (b) once closed, along every further
schedule the flag stays set and the in-flight count never increases;
(c) when `Stop()` has returned, the in-flight count is zero and no
admitted prediction is still running — every admitted prediction has
completed. -/
theorem claim_C3 :
    (∀ (s : PM.Sys) (i : Nat), s.mgr.closed = true → s.preds.get? i = some .idle →
      PM.stepSys s (.pred i) = ⟨s.mgr, s.preds.set i .retClosed, s.stopPh⟩) ∧
    (∀ (s : PM.Sys) (sched : List PM.Act), s.mgr.closed = true →
      (PM.runSys s sched).mgr.closed = true ∧
      (PM.runSys s sched).mgr.count ≤ s.mgr.count) ∧
    (∀ (n : Nat) (sched : List PM.Act),
      (PM.runSys (PM.initSys n) sched).stopPh = .returned →
      (PM.runSys (PM.initSys n) sched).mgr.count = 0 ∧
      PM.countRunning (PM.runSys (PM.initSys n) sched).preds = 0) := by
  refine ⟨?_, ?_, ?_⟩
  · intro s i hc hget
    dsimp only [PM.stepSys]
    rw [hget]
    dsimp only [PM.stepPred]
    rw [if_pos hc]
  · intro s sched hc
    induction sched generalizing s with
    | nil => exact ⟨hc, le_refl _⟩
    | cons a rest ih =>
      have hstep := PM.closed_step s a hc
      have hrest := ih (PM.stepSys s a) hstep.1
      exact ⟨hrest.1, le_trans hrest.2 hstep.2⟩
  · intro n sched hret
    have hinv := PM.pinv_run (PM.initSys n) sched (PM.pinv_init n)
    have h0 := hinv.returned_zero hret
    exact ⟨h0, by rw [← hinv.count_eq]; exact h0⟩

/-- Witness for C3: a closed manager rejects an idle caller; a
drained `Stop` has returned with zero in-flight count. -/
theorem claim_C3_witness :
    PM.stepSys ⟨⟨true, 0⟩, [.idle], .notCalled⟩ (.pred 0) =
      ⟨⟨true, 0⟩, [PM.PPhase.retClosed], .notCalled⟩ ∧
    (PM.runSys (PM.initSys 1) [.stop, .stop]).mgr.count = 0 := by
  constructor
  · exact claim_C3.1 ⟨⟨true, 0⟩, [.idle], .notCalled⟩ 0 rfl rfl
  · exact (claim_C3.2.2 1 [.stop, .stop] (by decide)).1

/-- Reading an index of a list after `set`: either the set index with
the new element, or an untouched index. -/
theorem MM.get?_set_cases {l : List MM.Thread} {tid : Nat} {t t' : MM.Thread}
    (hget : l.get? tid = some t) (j : Nat) (tj : MM.Thread)
    (h : (l.set tid t').get? j = some tj) :
    (j = tid ∧ tj = t') ∨ (j ≠ tid ∧ l.get? j = some tj) := by
  by_cases hj : j = tid
  · subst hj
    rw [List.get?_set_eq, hget] at h
    cases h
    exact .inl ⟨rfl, rfl⟩
  · exact .inr ⟨hj, by rwa [List.get?_set_ne _ _ fun he => hj he.symm] at h⟩

/-- Replacing element `i` exchanges its contribution to a `countP`. -/
theorem MM.countP_set_exch {l : List MM.Thread} {i : Nat} {a : MM.Thread} (b : MM.Thread)
    (p : MM.Thread → Bool) (h : l.get? i = some a) :
    (l.set i b).countP p + (if p a then 1 else 0) =
      l.countP p + (if p b then 1 else 0) := by
  induction l generalizing i with
  | nil => simp at h
  | cons hd tl ih =>
    cases i with
    | zero =>
      rw [List.get?_cons_zero, Option.some.injEq] at h
      subst h
      simp only [List.set_cons_zero, List.countP_cons]
      omega
    | succ j =>
      rw [List.get?_cons_succ] at h
      have := ih h
      simp only [List.set_cons_succ, List.countP_cons]
      omega

/-- A `checking` step goes to `evict` only when the observed entry
holds an error. -/
theorem MM.err_ne_of_not_ret {st : MM.MStateV}
    (h : ¬((MM.getModelAt st).1 ≠ none ∨ (MM.getModelAt st).2 = none)) :
    st.err ≠ none := by
  push_neg at h
  intro he
  exact h.2 (by unfold MM.getModelAt; rw [he])

/-- A thread phase's owned index is also its held index. -/
theorem MM.phaseSid_of_ownerSid {ph : MM.Phase} {sid : Nat} (h : MM.ownerSid ph = some sid) :
    MM.phaseSid ph = some sid := by
  cases ph <;> simp_all [MM.ownerSid, MM.phaseSid]

/-- Registering one more progress sink leaves every entry's `model`,
`err` and `wg` fields unchanged. -/
theorem MM.addProgress_preserves (h : Nat → MM.MStateV) (sid pid sid' : Nat) :
    (Function.update h sid (MM.addProgress (h sid) pid) sid').model = (h sid').model ∧
    (Function.update h sid (MM.addProgress (h sid) pid) sid').err = (h sid').err ∧
    (Function.update h sid (MM.addProgress (h sid) pid) sid').wg = (h sid').wg := by
  by_cases hs : sid' = sid
  · subst hs
    rw [Function.update_same]
    exact ⟨rfl, rfl, rfl⟩
  · rw [Function.update_noteq hs]
    exact ⟨rfl, rfl, rfl⟩

/-- `MM.Inv` is preserved by every scheduled step, for every oracle. -/
theorem MM.inv_step (o : MM.Oracle) (s : MM.Sys) (tid : Nat) (hinv : MM.Inv s) :
    MM.Inv (MM.stepSys o s tid) := by
  obtain ⟨bmap, bthr, owner, cons, evicterr⟩ := hinv
  dsimp only [MM.stepSys]
  cases hget : s.threads.get? tid with
  | none => exact ⟨bmap, bthr, owner, cons, evicterr⟩
  | some t =>
    dsimp only [MM.stepThread]
    cases hph : t.phase with
    | ret r => exact ⟨bmap, bthr, owner, cons, evicterr⟩
    | start =>
      dsimp only [MM.initiateLoad]
      by_cases hclosed : s.mgr.closed = true
      · rw [if_pos hclosed]
        dsimp only
        refine ⟨bmap, ?_, ?_, ?_, ?_⟩
        · intro j tj sid hj hsid
          rcases MM.get?_set_cases hget j tj hj with ⟨rfl, rfl⟩ | ⟨hne, hold⟩
          · cases hsid
          · exact bthr j tj sid hold hsid
        · intro i j ti tj sidi sidj hij hi hj hoi hoj
          rcases MM.get?_set_cases hget i ti hi with ⟨rfl, rfl⟩ | ⟨hnei, holdi⟩
          · cases hoi
          · rcases MM.get?_set_cases hget j tj hj with ⟨rfl, rfl⟩ | ⟨hnej, holdj⟩
            · cases hoj
            · exact owner i j ti tj sidi sidj hij holdi holdj hoi hoj
        · intro i ti sid hi hdom
          rcases MM.get?_set_cases hget i ti hi with ⟨rfl, rfl⟩ | ⟨hne, hold⟩
          · rcases hdom with h | ⟨r, h⟩ <;> cases h
          · exact cons i ti sid hold hdom
        · intro i ti sid hi hev
          rcases MM.get?_set_cases hget i ti hi with ⟨rfl, rfl⟩ | ⟨hne, hold⟩
          · cases hev
          · exact evicterr i ti sid hold hev
      · rw [if_neg hclosed]
        cases hlk : s.mgr.map t.key with
        | some sid =>
          dsimp only
          refine ⟨bmap, ?_, ?_, ?_, ?_⟩
          · intro j tj sid' hj hsid
            rcases MM.get?_set_cases hget j tj hj with ⟨rfl, rfl⟩ | ⟨hne, hold⟩
            · dsimp only [MM.phaseSid] at hsid
              dsimp only
              cases hsid
              exact bmap t.key _ hlk
            · exact bthr j tj sid' hold hsid
          · intro i j ti tj sidi sidj hij hi hj hoi hoj
            rcases MM.get?_set_cases hget i ti hi with ⟨rfl, rfl⟩ | ⟨hnei, holdi⟩
            · cases hoi
            · rcases MM.get?_set_cases hget j tj hj with ⟨rfl, rfl⟩ | ⟨hnej, holdj⟩
              · cases hoj
              · exact owner i j ti tj sidi sidj hij holdi holdj hoi hoj
          · intro i ti sid' hi hdom
            rcases MM.get?_set_cases hget i ti hi with ⟨rfl, rfl⟩ | ⟨hne, hold⟩
            · rcases hdom with h | ⟨r, h⟩ <;> cases h
            · have hc := cons i ti sid' hold hdom
              have hpp := MM.addProgress_preserves s.mgr.heap sid t.pid sid'
              exact ⟨hc.1, by rw [hpp.1]; exact hc.2.1, by rw [hpp.2.1]; exact hc.2.2.1,
                by rw [hpp.2.2]; exact hc.2.2.2⟩
          · intro i ti sid' hi hev
            rcases MM.get?_set_cases hget i ti hi with ⟨rfl, rfl⟩ | ⟨hne, hold⟩
            · cases hev
            · have he := evicterr i ti sid' hold hev
              have hpp := MM.addProgress_preserves s.mgr.heap sid t.pid sid'
              rw [hpp.2.1]
              exact he
        | none =>
          dsimp only
          refine ⟨?_, ?_, ?_, ?_, ?_⟩
          · intro k sid hk
            dsimp only at hk ⊢
            by_cases hs : k = t.key
            · subst hs
              rw [Function.update_same] at hk
              cases hk
              omega
            · rw [Function.update_noteq hs] at hk
              have := bmap k sid hk
              omega
          · intro j tj sid hj hsid
            dsimp only
            rcases MM.get?_set_cases hget j tj hj with ⟨rfl, rfl⟩ | ⟨hne, hold⟩
            · dsimp only [MM.phaseSid] at hsid
              cases hsid
              omega
            · have := bthr j tj sid hold hsid
              omega
          · intro i j ti tj sidi sidj hij hi hj hoi hoj
            rcases MM.get?_set_cases hget i ti hi with ⟨rfl, rfl⟩ | ⟨hnei, holdi⟩
            · dsimp only [MM.ownerSid] at hoi
              cases hoi
              rcases MM.get?_set_cases hget j tj hj with ⟨rfl, rfl⟩ | ⟨hnej, holdj⟩
              · exact absurd rfl hij
              · have := bthr j tj sidj holdj (MM.phaseSid_of_ownerSid hoj)
                omega
            · rcases MM.get?_set_cases hget j tj hj with ⟨rfl, rfl⟩ | ⟨hnej, holdj⟩
              · dsimp only [MM.ownerSid] at hoj
                cases hoj
                have := bthr i ti sidi holdi (MM.phaseSid_of_ownerSid hoi)
                omega
              · exact owner i j ti tj sidi sidj hij holdi holdj hoi hoj
          · intro i ti sid hi hdom
            rcases MM.get?_set_cases hget i ti hi with ⟨rfl, rfl⟩ | ⟨hne, hold⟩
            · have hsid : sid = s.mgr.next := by
                rcases hdom with h | ⟨r, h⟩ <;> cases h <;> rfl
              subst hsid
              dsimp only
              rw [Function.update_same, Function.update_same]
              exact ⟨rfl, rfl, rfl, rfl⟩
            · have hc := cons i ti sid hold hdom
              have hbound := bthr i ti sid hold (by
                rcases hdom with h | ⟨r, h⟩ <;> rw [h] <;> rfl)
              have hkne : ti.key ≠ t.key := by
                intro hk
                rw [hk, hlk] at hc
                cases hc.1
              dsimp only
              rw [Function.update_noteq hkne, Function.update_noteq (by omega : sid ≠ s.mgr.next)]
              exact hc
          · intro i ti sid hi hev
            rcases MM.get?_set_cases hget i ti hi with ⟨rfl, rfl⟩ | ⟨hne, hold⟩
            · cases hev
            · have he := evicterr i ti sid hold hev
              have hbound := bthr i ti sid hold (by rw [hev]; rfl)
              dsimp only
              rw [Function.update_noteq (by omega : sid ≠ s.mgr.next)]
              exact he
    | checking sid =>
      dsimp only
      by_cases hcond : (MM.getModelAt (s.mgr.heap sid)).1 ≠ none ∨
          (MM.getModelAt (s.mgr.heap sid)).2 = none
      · rw [if_pos hcond]
        dsimp only
        refine ⟨bmap, ?_, ?_, ?_, ?_⟩
        · intro j tj sid' hj hsid
          rcases MM.get?_set_cases hget j tj hj with ⟨rfl, rfl⟩ | ⟨hne, hold⟩
          · cases hsid
          · exact bthr j tj sid' hold hsid
        · intro i j ti tj sidi sidj hij hi hj hoi hoj
          rcases MM.get?_set_cases hget i ti hi with ⟨rfl, rfl⟩ | ⟨hnei, holdi⟩
          · cases hoi
          · rcases MM.get?_set_cases hget j tj hj with ⟨rfl, rfl⟩ | ⟨hnej, holdj⟩
            · cases hoj
            · exact owner i j ti tj sidi sidj hij holdi holdj hoi hoj
        · intro i ti sid' hi hdom
          rcases MM.get?_set_cases hget i ti hi with ⟨rfl, rfl⟩ | ⟨hne, hold⟩
          · rcases hdom with h | ⟨r, h⟩ <;> cases h
          · exact cons i ti sid' hold hdom
        · intro i ti sid' hi hev
          rcases MM.get?_set_cases hget i ti hi with ⟨rfl, rfl⟩ | ⟨hne, hold⟩
          · cases hev
          · exact evicterr i ti sid' hold hev
      · rw [if_neg hcond]
        dsimp only
        refine ⟨bmap, ?_, ?_, ?_, ?_⟩
        · intro j tj sid' hj hsid
          rcases MM.get?_set_cases hget j tj hj with ⟨rfl, rfl⟩ | ⟨hne, hold⟩
          · dsimp only [MM.phaseSid] at hsid
            cases hsid
            exact bthr _ t _ hget (by rw [hph]; rfl)
          · exact bthr j tj sid' hold hsid
        · intro i j ti tj sidi sidj hij hi hj hoi hoj
          rcases MM.get?_set_cases hget i ti hi with ⟨rfl, rfl⟩ | ⟨hnei, holdi⟩
          · cases hoi
          · rcases MM.get?_set_cases hget j tj hj with ⟨rfl, rfl⟩ | ⟨hnej, holdj⟩
            · cases hoj
            · exact owner i j ti tj sidi sidj hij holdi holdj hoi hoj
        · intro i ti sid' hi hdom
          rcases MM.get?_set_cases hget i ti hi with ⟨rfl, rfl⟩ | ⟨hne, hold⟩
          · rcases hdom with h | ⟨r, h⟩ <;> cases h
          · exact cons i ti sid' hold hdom
        · intro i ti sid' hi hev
          rcases MM.get?_set_cases hget i ti hi with ⟨rfl, rfl⟩ | ⟨hne, hold⟩
          · dsimp only at hev
            injection hev with h
            subst h
            exact MM.err_ne_of_not_ret hcond
          · exact evicterr i ti sid' hold hev
    | evict sid =>
      dsimp only
      refine ⟨?_, ?_, ?_, ?_, ?_⟩
      · intro k sid' hk
        have hnext : (MM.removeState s.mgr t.key sid).next = s.mgr.next := by
          unfold MM.removeState
          split <;> rfl
        rw [hnext]
        unfold MM.removeState at hk
        split at hk
        · dsimp only at hk
          by_cases hs : k = t.key
          · subst hs
            rw [Function.update_same] at hk
            cases hk
          · rw [Function.update_noteq hs] at hk
            exact bmap k sid' hk
        · exact bmap k sid' hk
      · intro j tj sid' hj hsid
        have hnext : (MM.removeState s.mgr t.key sid).next = s.mgr.next := by
          unfold MM.removeState
          split <;> rfl
        rw [hnext]
        rcases MM.get?_set_cases hget j tj hj with ⟨rfl, rfl⟩ | ⟨hne, hold⟩
        · dsimp only [MM.phaseSid] at hsid
          cases hsid
          exact bthr _ t _ hget (by rw [hph]; rfl)
        · exact bthr j tj sid' hold hsid
      · intro i j ti tj sidi sidj hij hi hj hoi hoj
        rcases MM.get?_set_cases hget i ti hi with ⟨rfl, rfl⟩ | ⟨hnei, holdi⟩
        · cases hoi
        · rcases MM.get?_set_cases hget j tj hj with ⟨rfl, rfl⟩ | ⟨hnej, holdj⟩
          · cases hoj
          · exact owner i j ti tj sidi sidj hij holdi holdj hoi hoj
      · intro i ti sid' hi hdom
        rcases MM.get?_set_cases hget i ti hi with ⟨rfl, rfl⟩ | ⟨hne, hold⟩
        · rcases hdom with h | ⟨r, h⟩ <;> cases h
        · have hc := cons i ti sid' hold hdom
          have hheap : (MM.removeState s.mgr t.key sid).heap = s.mgr.heap := by
            unfold MM.removeState
            split <;> rfl
          rw [hheap]
          refine ⟨?_, hc.2.1, hc.2.2.1, hc.2.2.2⟩
          unfold MM.removeState
          split
          · next hcnd =>
              dsimp only
              by_cases hkk : ti.key = t.key
              · exfalso
                rw [hkk] at hc
                rw [hc.1] at hcnd
                cases hcnd
                exact evicterr tid t _ hget hph hc.2.2.1
              · rw [Function.update_noteq hkk]
                exact hc.1
          · exact hc.1
      · intro i ti sid' hi hev
        have hheap : (MM.removeState s.mgr t.key sid).heap = s.mgr.heap := by
          unfold MM.removeState
          split <;> rfl
        rw [hheap]
        rcases MM.get?_set_cases hget i ti hi with ⟨rfl, rfl⟩ | ⟨hne, hold⟩
        · cases hev
        · exact evicterr i ti sid' hold hev
    | waitWg sid =>
      dsimp only
      by_cases hwg : (s.mgr.heap sid).wg = 0
      · rw [if_pos hwg]
        dsimp only
        refine ⟨bmap, ?_, ?_, ?_, ?_⟩
        · intro j tj sid' hj hsid
          rcases MM.get?_set_cases hget j tj hj with ⟨rfl, rfl⟩ | ⟨hne, hold⟩
          · cases hsid
          · exact bthr j tj sid' hold hsid
        · intro i j ti tj sidi sidj hij hi hj hoi hoj
          rcases MM.get?_set_cases hget i ti hi with ⟨rfl, rfl⟩ | ⟨hnei, holdi⟩
          · cases hoi
          · rcases MM.get?_set_cases hget j tj hj with ⟨rfl, rfl⟩ | ⟨hnej, holdj⟩
            · cases hoj
            · exact owner i j ti tj sidi sidj hij holdi holdj hoi hoj
        · intro i ti sid' hi hdom
          rcases MM.get?_set_cases hget i ti hi with ⟨rfl, rfl⟩ | ⟨hne, hold⟩
          · rcases hdom with h | ⟨r, h⟩ <;> cases h
          · exact cons i ti sid' hold hdom
        · intro i ti sid' hi hev
          rcases MM.get?_set_cases hget i ti hi with ⟨rfl, rfl⟩ | ⟨hne, hold⟩
          · cases hev
          · exact evicterr i ti sid' hold hev
      · rw [if_neg hwg]
        exact ⟨bmap, bthr, owner, cons, evicterr⟩
    | construct sid =>
      dsimp only
      refine ⟨bmap, ?_, ?_, ?_, ?_⟩
      · intro j tj sid' hj hsid
        rcases MM.get?_set_cases hget j tj hj with ⟨rfl, rfl⟩ | ⟨hne, hold⟩
        · dsimp only [MM.phaseSid] at hsid
          cases hsid
          exact bthr _ t _ hget (by rw [hph]; rfl)
        · exact bthr j tj sid' hold hsid
      · intro i j ti tj sidi sidj hij hi hj hoi hoj
        rcases MM.get?_set_cases hget i ti hi with ⟨rfl, rfl⟩ | ⟨hnei, holdi⟩
        · dsimp only [MM.ownerSid] at hoi
          rcases MM.get?_set_cases hget j tj hj with ⟨rfl, rfl⟩ | ⟨hnej, holdj⟩
          · exact absurd rfl hij
          · exact owner i j t tj sidi sidj hij hget holdj (by rw [hph]; exact hoi) hoj
        · rcases MM.get?_set_cases hget j tj hj with ⟨rfl, rfl⟩ | ⟨hnej, holdj⟩
          · dsimp only [MM.ownerSid] at hoj
            exact owner i j ti t sidi sidj hnei holdi hget hoi (by rw [hph]; exact hoj)
          · exact owner i j ti tj sidi sidj hij holdi holdj hoi hoj
      · intro i ti sid' hi hdom
        rcases MM.get?_set_cases hget i ti hi with ⟨rfl, rfl⟩ | ⟨hne, hold⟩
        · have hsid : sid' = sid := by
            rcases hdom with h | ⟨r, h⟩ <;> cases h <;> rfl
          subst hsid
          exact cons _ t _ hget (.inl hph)
        · exact cons i ti sid' hold hdom
      · intro i ti sid' hi hev
        rcases MM.get?_set_cases hget i ti hi with ⟨rfl, rfl⟩ | ⟨hne, hold⟩
        · cases hev
        · exact evicterr i ti sid' hold hev
    | save sid r =>
      have hcme := cons tid t sid hget (.inr ⟨r, hph⟩)
      dsimp only
      refine ⟨bmap, ?_, ?_, ?_, ?_⟩
      · intro j tj sid' hj hsid
        rcases MM.get?_set_cases hget j tj hj with ⟨rfl, rfl⟩ | ⟨hne, hold⟩
        · dsimp only [MM.phaseSid] at hsid
          cases hsid
          exact bthr _ t _ hget (by rw [hph]; rfl)
        · exact bthr j tj sid' hold hsid
      · intro i j ti tj sidi sidj hij hi hj hoi hoj
        rcases MM.get?_set_cases hget i ti hi with ⟨rfl, rfl⟩ | ⟨hnei, holdi⟩
        · dsimp only [MM.ownerSid] at hoi
          rcases MM.get?_set_cases hget j tj hj with ⟨rfl, rfl⟩ | ⟨hnej, holdj⟩
          · exact absurd rfl hij
          · exact owner i j t tj sidi sidj hij hget holdj (by rw [hph]; exact hoi) hoj
        · rcases MM.get?_set_cases hget j tj hj with ⟨rfl, rfl⟩ | ⟨hnej, holdj⟩
          · dsimp only [MM.ownerSid] at hoj
            exact owner i j ti t sidi sidj hnei holdi hget hoi (by rw [hph]; exact hoj)
          · exact owner i j ti tj sidi sidj hij holdi holdj hoi hoj
      · intro i ti sid' hi hdom
        rcases MM.get?_set_cases hget i ti hi with ⟨rfl, rfl⟩ | ⟨hne, hold⟩
        · rcases hdom with h | ⟨r2, h⟩ <;> cases h
        · have hc := cons i ti sid' hold hdom
          have hsne : sid' ≠ sid := by
            refine owner i tid ti t sid' sid hne hold hget ?_ (by rw [hph]; rfl)
            rcases hdom with h | ⟨r2, h⟩ <;> rw [h] <;> rfl
          unfold MM.saveLoaded
          dsimp only
          rw [Function.update_noteq hsne]
          exact hc
      · intro i ti sid' hi hev
        rcases MM.get?_set_cases hget i ti hi with ⟨rfl, rfl⟩ | ⟨hne, hold⟩
        · cases hev
        · have he := evicterr i ti sid' hold hev
          have hsne : sid' ≠ sid := by
            intro hcontra
            subst hcontra
            exact he hcme.2.2.1
          unfold MM.saveLoaded
          dsimp only
          rwa [Function.update_noteq hsne]
    | wgdone sid r =>
      dsimp only
      refine ⟨bmap, ?_, ?_, ?_, ?_⟩
      · intro j tj sid' hj hsid
        rcases MM.get?_set_cases hget j tj hj with ⟨rfl, rfl⟩ | ⟨hne, hold⟩
        · cases hsid
        · exact bthr j tj sid' hold hsid
      · intro i j ti tj sidi sidj hij hi hj hoi hoj
        rcases MM.get?_set_cases hget i ti hi with ⟨rfl, rfl⟩ | ⟨hnei, holdi⟩
        · cases hoi
        · rcases MM.get?_set_cases hget j tj hj with ⟨rfl, rfl⟩ | ⟨hnej, holdj⟩
          · cases hoj
          · exact owner i j ti tj sidi sidj hij holdi holdj hoi hoj
      · intro i ti sid' hi hdom
        rcases MM.get?_set_cases hget i ti hi with ⟨rfl, rfl⟩ | ⟨hne, hold⟩
        · rcases hdom with h | ⟨r2, h⟩ <;> cases h
        · have hc := cons i ti sid' hold hdom
          have hsne : sid' ≠ sid := by
            refine owner i tid ti t sid' sid hne hold hget ?_ (by rw [hph]; rfl)
            rcases hdom with h | ⟨r2, h⟩ <;> rw [h] <;> rfl
          unfold MM.wgDone
          dsimp only
          rw [Function.update_noteq hsne]
          exact hc
      · intro i ti sid' hi hev
        rcases MM.get?_set_cases hget i ti hi with ⟨rfl, rfl⟩ | ⟨hne, hold⟩
        · cases hev
        · have he := evicterr i ti sid' hold hev
          unfold MM.wgDone
          dsimp only
          by_cases hs : sid' = sid
          · subst hs
            rw [Function.update_same]
            exact he
          · rwa [Function.update_noteq hs]

/-- Every thread of the initial system is at `start`. -/
theorem MM.init_thread (cfg : List (String × Nat)) (i : Nat) (t : MM.Thread)
    (hi : (MM.initSys cfg).threads.get? i = some t) : t.phase = .start := by
  dsimp only [MM.initSys] at hi
  rw [List.get?_map] at hi
  cases hcf : cfg.get? i with
  | none => rw [hcf] at hi; cases hi
  | some p => rw [hcf] at hi; cases hi; rfl

/-- `MM.Inv` holds initially. -/
theorem MM.inv_init (cfg : List (String × Nat)) : MM.Inv (MM.initSys cfg) := by
  refine ⟨?_, ?_, ?_, ?_, ?_⟩
  · intro k sid hk
    cases hk
  · intro i t sid hi hsid
    rw [MM.init_thread cfg i t hi] at hsid
    cases hsid
  · intro i j ti tj sidi sidj hij hi hj hoi hoj
    rw [MM.init_thread cfg i ti hi] at hoi
    cases hoi
  · intro i t sid hi hdom
    rw [MM.init_thread cfg i t hi] at hdom
    rcases hdom with h | ⟨r, h⟩ <;> cases h
  · intro i t sid hi hev
    rw [MM.init_thread cfg i t hi] at hev
    cases hev

/-- `MM.Inv` holds along every run. -/
theorem MM.inv_run (o : MM.Oracle) (s : MM.Sys) (sched : List Nat) (hinv : MM.Inv s) :
    MM.Inv (MM.runSys o s sched) := by
  induction sched generalizing s with
  | nil => exact hinv
  | cons a rest ih => exact ih (MM.stepSys o s a) (MM.inv_step o s a hinv)

/-- A list in which no two distinct positions both satisfy `p` has at
most one element satisfying `p`. -/
theorem MM.countP_le_one_of_pairwise (l : List MM.Thread) (p : MM.Thread → Bool)
    (h : ∀ i j a b, i ≠ j → l.get? i = some a → l.get? j = some b →
      p a = true → p b = true → False) :
    l.countP p ≤ 1 := by
  induction l with
  | nil => simp
  | cons hd tl ih =>
    rw [List.countP_cons]
    by_cases hp : p hd = true
    · have hz : tl.countP p = 0 := by
        rw [List.countP_eq_zero]
        intro a ha hpa
        obtain ⟨n, hn⟩ := List.mem_iff_get?.mp ha
        exact h 0 (n + 1) hd a (by omega) rfl (by simpa using hn) hp hpa
      simp [hp, hz]
    · have hle : tl.countP p ≤ 1 := by
        apply ih
        intro i j a b hij hi hj hpa hpb
        exact h (i + 1) (j + 1) a b (by omega) (by simpa using hi) (by simpa using hj) hpa hpb
      rw [if_neg hp]
      omega

/-- A phase with `isConstruct` set is a `construct` phase. -/
theorem MM.construct_of_isConstruct {ph : MM.Phase} (h : ph.isConstruct = true) :
    ∃ sid, ph = .construct sid := by
  cases ph <;> simp_all [MM.Phase.isConstruct]

/-- In every state satisfying the invariant, at most one thread per
key has its construction call in flight. -/
theorem MM.inFlight_le_one (s : MM.Sys) (hinv : MM.Inv s) (k : String) :
    MM.inFlight s k ≤ 1 := by
  unfold MM.inFlight
  apply MM.countP_le_one_of_pairwise
  intro i j a b hij hi hj hpa hpb
  simp only [MM.isConsFor, Bool.and_eq_true, beq_iff_eq] at hpa hpb
  obtain ⟨hka, hca⟩ := hpa
  obtain ⟨hkb, hcb⟩ := hpb
  obtain ⟨sida, hpha⟩ := MM.construct_of_isConstruct hca
  obtain ⟨sidb, hphb⟩ := MM.construct_of_isConstruct hcb
  have hma := (hinv.cons i a sida hi (.inl hpha)).1
  have hmb := (hinv.cons j b sidb hj (.inl hphb)).1
  rw [hka] at hma
  rw [hkb] at hmb
  rw [hma] at hmb
  injection hmb with hsid
  exact hinv.owner i j a b sida sidb hij hi hj
    (by rw [hpha]; rfl) (by rw [hphb]; rfl) hsid

/-- C10. `removeState(path, state)` deletes the map entry only when
the currently mapped state is the very state object passed in (heap
index equality models Go pointer equality): (1) if a different state
is currently mapped, `removeState` is a no-op (a stale evictor cannot
disrupt a retry in progress); (2) if the same state is mapped, the
entry is removed; (3) in every reachable system state, every heap
index held by a thread (in particular a late evictor's) is below the
allocation counter; and (4) a fresh entry is created at the
allocation counter itself — so an entry created later never collides
with the index a stale evictor holds. -/
theorem claim_C10 :
    (∀ (m : MM.Mgr) (k : String) (sid sid' : Nat), m.map k = some sid' → sid' ≠ sid →
      MM.removeState m k sid = m) ∧
    (∀ (m : MM.Mgr) (k : String) (sid : Nat), m.map k = some sid →
      (MM.removeState m k sid).map k = none) ∧
    (∀ (o : MM.Oracle) (cfg : List (String × Nat)) (sched : List Nat) (i : Nat)
        (t : MM.Thread) (sid : Nat),
      (MM.runSys o (MM.initSys cfg) sched).threads.get? i = some t →
      MM.phaseSid t.phase = some sid →
      sid < (MM.runSys o (MM.initSys cfg) sched).mgr.next) ∧
    (∀ (m : MM.Mgr) (k : String) (pid : Nat), m.map k = none →
      (MM.initiateLoad m k pid).1 = some (m.next, false) ∨ m.closed = true) := by
  refine ⟨?_, ?_, ?_, ?_⟩
  · intro m k sid sid' hmk hne
    unfold MM.removeState
    rw [if_neg]
    intro hc
    rw [hmk] at hc
    injection hc with h
    exact hne h
  · intro m k sid hmk
    unfold MM.removeState
    rw [if_pos hmk]
    dsimp only
    rw [Function.update_same]
  · intro o cfg sched i t sid hi hsid
    exact (MM.inv_run o (MM.initSys cfg) sched (MM.inv_init cfg)).bthr i t sid hi hsid
  · intro m k pid hmk
    by_cases hc : m.closed = true
    · exact .inr hc
    · left
      unfold MM.initiateLoad
      rw [if_neg hc, hmk]

/-- Witness for C10 on a concrete manager mapping `"m"` to entry 1:
`removeState` with the stale entry 0 is a no-op, with entry 1 it
removes the mapping. -/
theorem claim_C10_witness :
    MM.removeState { MM.Mgr.empty with map := Function.update MM.Mgr.empty.map "m" (some 1), next := 2 } "m" 0 =
      { MM.Mgr.empty with map := Function.update MM.Mgr.empty.map "m" (some 1), next := 2 } ∧
    (MM.removeState { MM.Mgr.empty with map := Function.update MM.Mgr.empty.map "m" (some 1), next := 2 } "m" 1).map "m" = none :=
  ⟨claim_C10.1 _ "m" 0 1 (by simp) (by decide), claim_C10.2.1 _ "m" 1 (by simp)⟩

/-- The in-flight predicate is false on a thread not in a construct
phase. -/
theorem MM.isConsFor_false (k : String) (t : MM.Thread)
    (h : t.phase.isConstruct = false) : MM.isConsFor k t = false := by
  simp [MM.isConsFor, h]

/-- The in-flight predicate on a constructing thread is key
equality. -/
theorem MM.isConsFor_construct (k : String) (t : MM.Thread) (sid : Nat)
    (h : t.phase = .construct sid) : MM.isConsFor k t = (t.key == k) := by
  simp [MM.isConsFor, h, MM.Phase.isConstruct]

/-- A counted `if` on a false condition. -/
theorem MM.cntIf_false {c : Bool} (h : c = false) :
    (if c = true then (1 : Nat) else 0) = 0 := by
  rw [h]
  simp

/-- A counted `if` on a true condition. -/
theorem MM.cntIf_true {c : Bool} (h : c = true) :
    (if c = true then (1 : Nat) else 0) = 1 := by
  rw [h]
  simp

/-- Replacing a thread by one with the same key, neither in a
construct phase, and keeping the log, preserves `countA`. -/
theorem MM.countA_set_noncons (s : MM.Sys) (m' : MM.Mgr) (tid : Nat) (t t' : MM.Thread)
    (hget : s.threads.get? tid = some t) (h1 : t.phase.isConstruct = false)
    (h2 : t'.phase.isConstruct = false) (hlog : m'.log = s.mgr.log) (k : String) :
    MM.countA ⟨m', s.threads.set tid t'⟩ k = MM.countA s k := by
  unfold MM.countA
  dsimp only
  rw [hlog]
  have hex := MM.countP_set_exch t' (MM.isConsFor k) hget
  rw [MM.cntIf_false (MM.isConsFor_false k t h1),
    MM.cntIf_false (MM.isConsFor_false k t' h2)] at hex
  omega

/-- The `LoadModelFunc` invocation step (log append, construct →
save) preserves `countA`. -/
theorem MM.countA_construct (s : MM.Sys) (tid : Nat) (t : MM.Thread) (sid : Nat)
    (r : MM.LoadRes) (hget : s.threads.get? tid = some t) (hph : t.phase = .construct sid)
    (k : String) :
    MM.countA ⟨{ s.mgr with log := s.mgr.log ++ [t.key] },
        s.threads.set tid { t with phase := .save sid r }⟩ k = MM.countA s k := by
  unfold MM.countA
  dsimp only
  have hex := MM.countP_set_exch { t with phase := .save sid r } (MM.isConsFor k) hget
  rw [MM.cntIf_false (MM.isConsFor_false k { t with phase := .save sid r } rfl)] at hex
  rw [List.count_append]
  by_cases hk : t.key = k
  · rw [MM.cntIf_true (by rw [MM.isConsFor_construct k t sid hph]; exact beq_iff_eq.mpr hk)] at hex
    have hone : List.count k [t.key] = 1 := by
      rw [List.count_singleton, MM.cntIf_true (beq_iff_eq.mpr hk)]
    omega
  · rw [MM.cntIf_false (by rw [MM.isConsFor_construct k t sid hph]; exact beq_eq_false_iff_ne.mpr hk)] at hex
    have hzero : List.count k [t.key] = 0 := by
      rw [List.count_singleton, MM.cntIf_false (beq_eq_false_iff_ne.mpr hk)]
    omega

/-- `MM.InvS` is preserved by every scheduled step when every oracle
result carries no error. -/
theorem MM.inv_stepS (o : MM.Oracle) (hso : ∀ i, (o i).2 = none) (s : MM.Sys) (tid : Nat)
    (hS : MM.InvS s) : MM.InvS (MM.stepSys o s tid) := by
  obtain ⟨notclosed, allerr, noevict, saveok, acount, mapped⟩ := hS
  dsimp only [MM.stepSys]
  cases hget : s.threads.get? tid with
  | none => exact ⟨notclosed, allerr, noevict, saveok, acount, mapped⟩
  | some t =>
    dsimp only [MM.stepThread]
    cases hph : t.phase with
    | ret r => exact ⟨notclosed, allerr, noevict, saveok, acount, mapped⟩
    | evict sid => exact absurd hph (noevict tid t sid hget).1
    | waitWg sid => exact absurd hph (noevict tid t sid hget).2
    | start =>
      dsimp only [MM.initiateLoad]
      have hncl : ¬(s.mgr.closed = true) := by rw [notclosed]; simp
      rw [if_neg hncl]
      cases hlk : s.mgr.map t.key with
      | some sid =>
        refine ⟨notclosed, ?_, ?_, ?_, ?_, ?_⟩
        · intro sid'
          have hpp := MM.addProgress_preserves s.mgr.heap sid t.pid sid'
          dsimp only
          rw [hpp.2.1]
          exact allerr sid'
        · intro i ti sid' hi
          rcases MM.get?_set_cases hget i ti hi with ⟨rfl, rfl⟩ | ⟨hne, hold⟩
          · refine ⟨fun h => ?_, fun h => ?_⟩ <;> cases h
          · exact noevict i ti sid' hold
        · intro i ti sid' r' hi hsv
          rcases MM.get?_set_cases hget i ti hi with ⟨rfl, rfl⟩ | ⟨hne, hold⟩
          · cases hsv
          · exact saveok i ti sid' r' hold hsv
        · intro k
          have hca := MM.countA_set_noncons s
            { s.mgr with heap := Function.update s.mgr.heap sid (MM.addProgress (s.mgr.heap sid) t.pid) }
            tid t { t with phase := .checking sid } hget
            (by rw [hph]; rfl) rfl rfl k
          rw [hca]
          exact acount k
        · intro i ti hi hnst
          rcases MM.get?_set_cases hget i ti hi with ⟨rfl, rfl⟩ | ⟨hne, hold⟩
          · dsimp only
            rw [hlk]
            rfl
          · exact mapped i ti hold hnst
      | none =>
        refine ⟨notclosed, ?_, ?_, ?_, ?_, ?_⟩
        · intro sid'
          dsimp only
          by_cases hs : sid' = s.mgr.next
          · subst hs
            rw [Function.update_same]
          · rw [Function.update_noteq hs]
            exact allerr sid'
        · intro i ti sid' hi
          rcases MM.get?_set_cases hget i ti hi with ⟨rfl, rfl⟩ | ⟨hne, hold⟩
          · refine ⟨fun h => ?_, fun h => ?_⟩ <;> cases h
          · exact noevict i ti sid' hold
        · intro i ti sid' r' hi hsv
          rcases MM.get?_set_cases hget i ti hi with ⟨rfl, rfl⟩ | ⟨hne, hold⟩
          · cases hsv
          · exact saveok i ti sid' r' hold hsv
        · intro k
          have hex := MM.countP_set_exch { t with phase := .construct s.mgr.next }
            (MM.isConsFor k) hget
          rw [MM.cntIf_false (MM.isConsFor_false k t (by rw [hph]; rfl))] at hex
          by_cases hk : t.key = k
          · subst hk
            rw [MM.cntIf_true (by rw [MM.isConsFor_construct _ _ s.mgr.next rfl]; simp)] at hex
            rcases acount t.key with ⟨h1, h2⟩ | ⟨sid', h1, h2⟩
            · right
              refine ⟨s.mgr.next, by dsimp only; rw [Function.update_same], ?_⟩
              unfold MM.countA at h2 ⊢
              dsimp only
              omega
            · rw [hlk] at h1
              cases h1
          · rw [MM.cntIf_false (by rw [MM.isConsFor_construct _ _ s.mgr.next rfl]; exact beq_eq_false_iff_ne.mpr hk)] at hex
            rcases acount k with ⟨h1, h2⟩ | ⟨sid', h1, h2⟩
            · left
              refine ⟨by dsimp only; rw [Function.update_noteq (fun h => hk h.symm)]; exact h1, ?_⟩
              unfold MM.countA at h2 ⊢
              dsimp only
              omega
            · right
              refine ⟨sid', by dsimp only; rw [Function.update_noteq (fun h => hk h.symm)]; exact h1, ?_⟩
              unfold MM.countA at h2 ⊢
              dsimp only
              omega
        · intro i ti hi hnst
          rcases MM.get?_set_cases hget i ti hi with ⟨rfl, rfl⟩ | ⟨hne, hold⟩
          · dsimp only
            rw [Function.update_same]
            rfl
          · have := mapped i ti hold hnst
            dsimp only
            by_cases hk : ti.key = t.key
            · rw [hk, Function.update_same]
              rfl
            · rwa [Function.update_noteq hk]
    | checking sid =>
      dsimp only
      have hcond : (MM.getModelAt (s.mgr.heap sid)).1 ≠ none ∨
          (MM.getModelAt (s.mgr.heap sid)).2 = none := by
        right
        unfold MM.getModelAt
        rw [allerr sid]
      rw [if_pos hcond]
      refine ⟨notclosed, allerr, ?_, ?_, ?_, ?_⟩
      · intro i ti sid' hi
        rcases MM.get?_set_cases hget i ti hi with ⟨rfl, rfl⟩ | ⟨hne, hold⟩
        · refine ⟨fun h => ?_, fun h => ?_⟩ <;> cases h
        · exact noevict i ti sid' hold
      · intro i ti sid' r' hi hsv
        rcases MM.get?_set_cases hget i ti hi with ⟨rfl, rfl⟩ | ⟨hne, hold⟩
        · cases hsv
        · exact saveok i ti sid' r' hold hsv
      · intro k
        have hca := MM.countA_set_noncons s s.mgr tid t
          { t with phase := .ret (MM.getModelAt (s.mgr.heap sid)) } hget
          (by rw [hph]; rfl) rfl rfl k
        rw [hca]
        exact acount k
      · intro i ti hi hnst
        rcases MM.get?_set_cases hget i ti hi with ⟨rfl, rfl⟩ | ⟨hne, hold⟩
        · exact mapped _ t hget (by rw [hph]; intro h; cases h)
        · exact mapped i ti hold hnst
    | construct sid =>
      dsimp only
      refine ⟨notclosed, allerr, ?_, ?_, ?_, ?_⟩
      · intro i ti sid' hi
        rcases MM.get?_set_cases hget i ti hi with ⟨rfl, rfl⟩ | ⟨hne, hold⟩
        · refine ⟨fun h => ?_, fun h => ?_⟩ <;> cases h
        · exact noevict i ti sid' hold
      · intro i ti sid' r' hi hsv
        rcases MM.get?_set_cases hget i ti hi with ⟨rfl, rfl⟩ | ⟨hne, hold⟩
        · dsimp only at hsv
          injection hsv with h1 h2
          rw [← h2]
          exact hso s.mgr.log.length
        · exact saveok i ti sid' r' hold hsv
      · intro k
        have hca := MM.countA_construct s tid t sid (o s.mgr.log.length) hget hph k
        rw [hca]
        exact acount k
      · intro i ti hi hnst
        rcases MM.get?_set_cases hget i ti hi with ⟨rfl, rfl⟩ | ⟨hne, hold⟩
        · exact mapped _ t hget (by rw [hph]; intro h; cases h)
        · exact mapped i ti hold hnst
    | save sid r =>
      dsimp only
      have hr2 : r.2 = none := saveok tid t sid r hget hph
      refine ⟨notclosed, ?_, ?_, ?_, ?_, ?_⟩
      · intro sid'
        unfold MM.saveLoaded
        dsimp only
        by_cases hs : sid' = sid
        · subst hs
          rw [Function.update_same]
          exact hr2
        · rw [Function.update_noteq hs]
          exact allerr sid'
      · intro i ti sid' hi
        rcases MM.get?_set_cases hget i ti hi with ⟨rfl, rfl⟩ | ⟨hne, hold⟩
        · refine ⟨fun h => ?_, fun h => ?_⟩ <;> cases h
        · exact noevict i ti sid' hold
      · intro i ti sid' r' hi hsv
        rcases MM.get?_set_cases hget i ti hi with ⟨rfl, rfl⟩ | ⟨hne, hold⟩
        · cases hsv
        · exact saveok i ti sid' r' hold hsv
      · intro k
        have hca := MM.countA_set_noncons s (MM.saveLoaded s.mgr sid r) tid t
          { t with phase := .wgdone sid r } hget (by rw [hph]; rfl) rfl rfl k
        rw [hca]
        exact acount k
      · intro i ti hi hnst
        rcases MM.get?_set_cases hget i ti hi with ⟨rfl, rfl⟩ | ⟨hne, hold⟩
        · exact mapped _ t hget (by rw [hph]; intro h; cases h)
        · exact mapped i ti hold hnst
    | wgdone sid r =>
      dsimp only
      refine ⟨notclosed, ?_, ?_, ?_, ?_, ?_⟩
      · intro sid'
        unfold MM.wgDone
        dsimp only
        by_cases hs : sid' = sid
        · subst hs
          rw [Function.update_same]
          exact allerr _
        · rw [Function.update_noteq hs]
          exact allerr sid'
      · intro i ti sid' hi
        rcases MM.get?_set_cases hget i ti hi with ⟨rfl, rfl⟩ | ⟨hne, hold⟩
        · refine ⟨fun h => ?_, fun h => ?_⟩ <;> cases h
        · exact noevict i ti sid' hold
      · intro i ti sid' r' hi hsv
        rcases MM.get?_set_cases hget i ti hi with ⟨rfl, rfl⟩ | ⟨hne, hold⟩
        · cases hsv
        · exact saveok i ti sid' r' hold hsv
      · intro k
        have hca := MM.countA_set_noncons s (MM.wgDone s.mgr sid) tid t
          { t with phase := .ret r } hget (by rw [hph]; rfl) rfl rfl k
        rw [hca]
        exact acount k
      · intro i ti hi hnst
        rcases MM.get?_set_cases hget i ti hi with ⟨rfl, rfl⟩ | ⟨hne, hold⟩
        · exact mapped _ t hget (by rw [hph]; intro h; cases h)
        · exact mapped i ti hold hnst

/-- `MM.InvS` holds initially. -/
theorem MM.invS_init (cfg : List (String × Nat)) : MM.InvS (MM.initSys cfg) := by
  refine ⟨rfl, fun _ => rfl, ?_, ?_, ?_, ?_⟩
  · intro i t sid hi
    rw [MM.init_thread cfg i t hi]
    refine ⟨fun h => ?_, fun h => ?_⟩ <;> cases h
  · intro i t sid r hi hsv
    rw [MM.init_thread cfg i t hi] at hsv
    cases hsv
  · intro k
    left
    refine ⟨rfl, ?_⟩
    unfold MM.countA
    dsimp only [MM.initSys, MM.Mgr.empty]
    rw [List.count_nil]
    have hz : (cfg.map (fun p => (⟨p.1, p.2, .start⟩ : MM.Thread))).countP (MM.isConsFor k) = 0 := by
      rw [List.countP_eq_zero]
      intro a ha
      obtain ⟨p, hp, rfl⟩ := List.mem_map.mp ha
      simp [MM.isConsFor, MM.Phase.isConstruct]
    rw [hz]
  · intro i t hi hnst
    exact absurd (MM.init_thread cfg i t hi) hnst

/-- `MM.InvS` holds along every run under a succeeding oracle. -/
theorem MM.invS_run (o : MM.Oracle) (hso : ∀ i, (o i).2 = none) (s : MM.Sys)
    (sched : List Nat) (hS : MM.InvS s) : MM.InvS (MM.runSys o s sched) := by
  induction sched generalizing s with
  | nil => exact hS
  | cons a rest ih => exact ih (MM.stepSys o s a) (MM.inv_stepS o hso s a hS)

/-- Exactly-once extraction: in a complete run (all threads returned)
under a succeeding stub, with at least one caller for key `k`, the
stub has been invoked exactly once for `k`. -/
theorem MM.log_count_one (o : MM.Oracle) (hso : ∀ i, (o i).2 = none)
    (cfg : List (String × Nat)) (sched : List Nat) (k : String)
    (hall : (MM.runSys o (MM.initSys cfg) sched).threads.all (fun t => t.phase.isRet) = true)
    (hany : (MM.runSys o (MM.initSys cfg) sched).threads.any (fun t => t.key == k) = true) :
    (MM.runSys o (MM.initSys cfg) sched).mgr.log.count k = 1 := by
  have hS := MM.invS_run o hso (MM.initSys cfg) sched (MM.invS_init cfg)
  have hzero : (MM.runSys o (MM.initSys cfg) sched).threads.countP (MM.isConsFor k) = 0 := by
    rw [List.countP_eq_zero]
    intro a ha hpa
    have hra := (List.all_eq_true.mp hall) a ha
    simp only [MM.isConsFor, Bool.and_eq_true] at hpa
    obtain ⟨sid, hc⟩ := MM.construct_of_isConstruct hpa.2
    rw [hc] at hra
    simp [MM.Phase.isRet] at hra
  obtain ⟨a, ha, hak⟩ := List.any_eq_true.mp hany
  have hak' : a.key = k := by simpa using hak
  obtain ⟨n, hn⟩ := List.mem_iff_get?.mp ha
  have hra := (List.all_eq_true.mp hall) a ha
  have hnst : a.phase ≠ .start := by
    intro h
    rw [h] at hra
    simp [MM.Phase.isRet] at hra
  have hmapped := hS.mapped n a hn hnst
  rcases hS.acount k with ⟨h1, h2⟩ | ⟨sid, h1, h2⟩
  · rw [hak', h1] at hmapped
    cases hmapped
  · unfold MM.countA at h2
    omega

/-- C2. At-most-one construction per key: (1) along every schedule
from every initial configuration, with any construction results, at
most one thread per key has its `LoadModelFunc` call in flight at any
instant; (2) a thread enters the constructing phase only from
`initiateLoad` on an open manager finding no entry for its key — the
caller that creates the entry, at the fresh index, becomes the
constructing caller; (3) with a construction stub that always
succeeds, in every complete run (all `LoadModel` calls returned) with
at least one caller for key `k`, the stub has been invoked exactly
once for `k`. -/
theorem claim_C2 :
    (∀ (o : MM.Oracle) (cfg : List (String × Nat)) (sched : List Nat) (k : String),
      MM.inFlight (MM.runSys o (MM.initSys cfg) sched) k ≤ 1) ∧
    (∀ (o : MM.Oracle) (m m' : MM.Mgr) (t t' : MM.Thread) (sid : Nat),
      MM.stepThread o m t = some (m', t') → t'.phase = .construct sid →
      t.phase = .start ∧ m.closed = false ∧ m.map t.key = none ∧ sid = m.next ∧
        m'.map t.key = some sid) ∧
    (∀ (o : MM.Oracle) (v : Nat), (∀ i, o i = (some v, none)) →
      ∀ (cfg : List (String × Nat)) (sched : List Nat) (k : String),
      (MM.runSys o (MM.initSys cfg) sched).threads.all (fun t => t.phase.isRet) = true →
      (MM.runSys o (MM.initSys cfg) sched).threads.any (fun t => t.key == k) = true →
      (MM.runSys o (MM.initSys cfg) sched).mgr.log.count k = 1) := by
  refine ⟨?_, ?_, ?_⟩
  · intro o cfg sched k
    exact MM.inFlight_le_one _ (MM.inv_run o (MM.initSys cfg) sched (MM.inv_init cfg)) k
  · intro o m m' t t' sid hstep hcph
    dsimp only [MM.stepThread] at hstep
    cases hph : t.phase with
    | start =>
      rw [hph] at hstep
      dsimp only [MM.initiateLoad] at hstep
      by_cases hclosed : m.closed = true
      · rw [if_pos hclosed] at hstep
        cases hstep
        cases hcph
      · rw [if_neg hclosed] at hstep
        cases hlk : m.map t.key with
        | some sid2 =>
          rw [hlk] at hstep
          cases hstep
          cases hcph
        | none =>
          rw [hlk] at hstep
          cases hstep
          dsimp only at hcph
          injection hcph with hsid
          subst hsid
          refine ⟨rfl, ?_, rfl, rfl, ?_⟩
          · cases hcb : m.closed
            · rfl
            · exact absurd hcb hclosed
          · dsimp only
            rw [Function.update_same]
    | ret r =>
      rw [hph] at hstep
      cases hstep
    | checking sid2 =>
      rw [hph] at hstep
      dsimp only at hstep
      split at hstep
      · cases hstep
        cases hcph
      · cases hstep
        cases hcph
    | evict sid2 =>
      rw [hph] at hstep
      cases hstep
      cases hcph
    | waitWg sid2 =>
      rw [hph] at hstep
      dsimp only at hstep
      split at hstep
      · cases hstep
        cases hcph
      · cases hstep
    | construct sid2 =>
      rw [hph] at hstep
      cases hstep
      cases hcph
    | save sid2 r =>
      rw [hph] at hstep
      cases hstep
      cases hcph
    | wgdone sid2 r =>
      rw [hph] at hstep
      cases hstep
      cases hcph
  · intro o v hsucc cfg sched k hall hany
    exact MM.log_count_one o (fun i => by rw [hsucc i]) cfg sched k hall hany

/-- Witness for C2: two concurrent `LoadModel("m")` calls with an
always-succeeding stub, run to completion; the stub was invoked
exactly once, and the step-level characterization applies to the
creating step. -/
theorem claim_C2_witness :
    (MM.runSys okOracle (MM.initSys [("m", 0), ("m", 1)]) [0, 0, 0, 0, 1, 1]).mgr.log.count "m" = 1 ∧
    MM.inFlight (MM.runSys okOracle (MM.initSys [("m", 0), ("m", 1)]) [0, 1]) "m" ≤ 1 := by
  constructor
  · exact claim_C2.2.2 okOracle 5 (fun _ => rfl) [("m", 0), ("m", 1)] [0, 0, 0, 0, 1, 1] "m"
      (by decide) (by decide)
  · exact claim_C2.1 okOracle [("m", 0), ("m", 1)] [0, 1] "m"

/-- C9. Generation-loop end-of-sequence: for any engine whose decodes
succeed, whose end-of-sequence predicate first holds on the 5th
sampled token, and whose detokenizer is total, with a token budget of
100 and sufficient context capacity, the loop returns with no error
after sampling exactly 5 tokens (the 5th, being the EOS token, is not
emitted, so 4 tokens are generated). -/
theorem claim_C9 (eng : GenLoop.Engine) (prompt : List Int) (f : Int → String) (n : Nat)
    (hdec : ∀ i, eng.decode i = .ok)
    (hs : ∀ i, i < 4 → eng.isEog (eng.sample i) = false)
    (h4 : eng.isEog (eng.sample 4) = true)
    (hp : ∀ t, eng.tokenToPiece t = .ok (f t))
    (hc : prompt.length + 4 ≤ eng.nCells) :
    ∃ st : GenLoop.LoopSt,
      GenLoop.genLoop eng 100 prompt none (n + 5) = some ((st.response, none), st) ∧
      st.samples = 5 ∧ st.generated = 4 ∧
      st.response = f (eng.sample 0) ++ f (eng.sample 1) ++ f (eng.sample 2) ++ f (eng.sample 3) := by
  have e1 : GenLoop.genLoop eng 100 prompt none (n + 5) =
      GenLoop.loopAux eng 100 prompt.length none (n + 4)
        ⟨f (eng.sample 0), 0 + prompt.length, 1, [eng.sample 0], 0 + prompt.length, 1, 1⟩ :=
    GenLoop.loopAux_step_ok eng 100 prompt.length (n + 4) (GenLoop.initSt prompt)
      (f (eng.sample 0)) (by dsimp only [GenLoop.initSt]; decide)
      (by dsimp only [GenLoop.initSt]; omega) (hdec 0) (hs 0 (by omega)) (hp _)
  have e2 : GenLoop.loopAux eng 100 prompt.length none (n + 4)
        ⟨f (eng.sample 0), 0 + prompt.length, 1, [eng.sample 0], 0 + prompt.length, 1, 1⟩ =
      GenLoop.loopAux eng 100 prompt.length none (n + 3)
        ⟨f (eng.sample 0) ++ f (eng.sample 1), 0 + prompt.length + 1, 2, [eng.sample 1],
          0 + prompt.length + 1, 2, 2⟩ :=
    GenLoop.loopAux_step_ok eng 100 prompt.length (n + 3)
      ⟨f (eng.sample 0), 0 + prompt.length, 1, [eng.sample 0], 0 + prompt.length, 1, 1⟩
      (f (eng.sample 1)) (by dsimp only; decide)
      (by dsimp only; simp only [List.length_singleton]; omega)
      (hdec 1) (hs 1 (by omega)) (hp _)
  have e3 : GenLoop.loopAux eng 100 prompt.length none (n + 3)
        ⟨f (eng.sample 0) ++ f (eng.sample 1), 0 + prompt.length + 1, 2, [eng.sample 1],
          0 + prompt.length + 1, 2, 2⟩ =
      GenLoop.loopAux eng 100 prompt.length none (n + 2)
        ⟨f (eng.sample 0) ++ f (eng.sample 1) ++ f (eng.sample 2), 0 + prompt.length + 1 + 1, 3,
          [eng.sample 2], 0 + prompt.length + 1 + 1, 3, 3⟩ :=
    GenLoop.loopAux_step_ok eng 100 prompt.length (n + 2)
      ⟨f (eng.sample 0) ++ f (eng.sample 1), 0 + prompt.length + 1, 2, [eng.sample 1],
        0 + prompt.length + 1, 2, 2⟩
      (f (eng.sample 2)) (by dsimp only; decide)
      (by dsimp only; simp only [List.length_singleton]; omega)
      (hdec 2) (hs 2 (by omega)) (hp _)
  have e4 : GenLoop.loopAux eng 100 prompt.length none (n + 2)
        ⟨f (eng.sample 0) ++ f (eng.sample 1) ++ f (eng.sample 2), 0 + prompt.length + 1 + 1, 3,
          [eng.sample 2], 0 + prompt.length + 1 + 1, 3, 3⟩ =
      GenLoop.loopAux eng 100 prompt.length none (n + 1)
        ⟨f (eng.sample 0) ++ f (eng.sample 1) ++ f (eng.sample 2) ++ f (eng.sample 3),
          0 + prompt.length + 1 + 1 + 1, 4, [eng.sample 3],
          0 + prompt.length + 1 + 1 + 1, 4, 4⟩ :=
    GenLoop.loopAux_step_ok eng 100 prompt.length (n + 1)
      ⟨f (eng.sample 0) ++ f (eng.sample 1) ++ f (eng.sample 2), 0 + prompt.length + 1 + 1, 3,
        [eng.sample 2], 0 + prompt.length + 1 + 1, 3, 3⟩
      (f (eng.sample 3)) (by dsimp only; decide)
      (by dsimp only; simp only [List.length_singleton]; omega)
      (hdec 3) (hs 3 (by omega)) (hp _)
  have e5 : GenLoop.loopAux eng 100 prompt.length none (n + 1)
        ⟨f (eng.sample 0) ++ f (eng.sample 1) ++ f (eng.sample 2) ++ f (eng.sample 3),
          0 + prompt.length + 1 + 1 + 1, 4, [eng.sample 3],
          0 + prompt.length + 1 + 1 + 1, 4, 4⟩ =
      some ((f (eng.sample 0) ++ f (eng.sample 1) ++ f (eng.sample 2) ++ f (eng.sample 3), none),
        ⟨f (eng.sample 0) ++ f (eng.sample 1) ++ f (eng.sample 2) ++ f (eng.sample 3),
          0 + prompt.length + 1 + 1 + 1 + 1, 4, [eng.sample 3],
          0 + prompt.length + 1 + 1 + 1 + 1, 5, 5⟩) :=
    GenLoop.loopAux_step_eog eng 100 prompt.length n
      ⟨f (eng.sample 0) ++ f (eng.sample 1) ++ f (eng.sample 2) ++ f (eng.sample 3),
        0 + prompt.length + 1 + 1 + 1, 4, [eng.sample 3],
        0 + prompt.length + 1 + 1 + 1, 4, 4⟩
      (by dsimp only; decide)
      (by dsimp only; simp only [List.length_singleton]; omega) (hdec 4) h4
  refine ⟨⟨f (eng.sample 0) ++ f (eng.sample 1) ++ f (eng.sample 2) ++ f (eng.sample 3),
    0 + prompt.length + 1 + 1 + 1 + 1, 4, [eng.sample 3],
    0 + prompt.length + 1 + 1 + 1 + 1, 5, 5⟩, ?_, rfl, rfl, rfl⟩
  rw [e1, e2, e3, e4, e5]

/-- Witness for C9 on the stub engine: token budget 100, EOS on the
5th sampled token, exactly 5 samples, 4 emitted tokens, no error. -/
theorem claim_C9_witness :
    ∃ st : GenLoop.LoopSt,
      GenLoop.genLoop stubEngine 100 [9, 9] none (0 + 5) = some ((st.response, none), st) ∧
      st.samples = 5 ∧ st.generated = 4 ∧
      st.response = (fun _ => "a") (stubEngine.sample 0) ++ (fun _ => "a") (stubEngine.sample 1) ++
        (fun _ => "a") (stubEngine.sample 2) ++ (fun _ => "a") (stubEngine.sample 3) :=
  claim_C9 stubEngine [9, 9] (fun _ => "a") 0 (fun _ => rfl)
    (fun i hi => by interval_cases i <;> decide) (by decide) (fun _ => rfl) (by decide)
